import Mathlib

/-!
# Simulated-annealing TSP heuristic (`ai_assignment1.cpp`): shallow embedding

The program keeps three global tours (`curr_path`, `new_path`, `min_path`), a
global temperature, and prints a report whenever a cheaper incumbent is found.

Modelling conventions.

* An `int` array is a `List Nat`; every value the program ever stores in a tour
  is `0`, a loop index, or a value read from a tour, so no negative entry arises.
* Every array read or write is bounds-checked: an access outside the array is
  undefined behaviour in C++ and is `none` here.  The same holds for an
  integer remainder by zero.
* `double` values are exact rationals (`ℚ`).  The conversion `double → int`
  of the cost accumulator truncates toward zero into the 32-bit range
  `INT_MIN .. INT_MAX`; a value outside that range (undefined behaviour in
  C++) converts to `INT_MIN`, the result of the x86-64 conversion instruction.
  The difference `gain` of two costs is taken exactly.
* The floating-point test `prob > randum_number` (lines 139–140, which calls
  `pow`) is a parameter `accepts gain temperature u`; results are proved for
  every such function.  The formula of line 139 is also given over the reals
  (`prob`, `realAccepts`) for the statements about its shape.
* `rand()` is not modelled as a generator: the values it returns are inputs.
* The console output is the list `out` of reports, oldest first; the elapsed
  wall-clock time printed with each report is left out.
-/

namespace Anneal

/-- A tour as stored in one of the global `int*` arrays. -/
abbrev Path := List Nat

/-- The global `double **adjacency_matrix`, row-major. -/
abbrev Matrix := List (List ℚ)

/-- A bounded `for (i = start; i < start + count; i++) s = body(i, s)` loop
whose body may fail. -/
def forLoop {σ : Type} (body : Nat → σ → Option σ) : Nat → Nat → σ → Option σ
  | 0, _, s => some s
  | count + 1, i, s => (body i s).bind (forLoop body count (i + 1))

/-- Array read `a[i]`. -/
def readAt (a : Path) (i : Nat) : Option Nat := a[i]?

/-- Array write `a[i] = v`. -/
def writeAt (a : Path) (i : Nat) (v : Nat) : Option Path :=
  if i < a.length then some (a.set i v) else none

/-- Lines 18–23:
`temp = new_path[r1]; new_path[r1] = new_path[r2]; new_path[r2] = temp;` -/
def swap (r1 r2 : Nat) (new_path : Path) : Option Path := do
  let temp ← readAt new_path r1
  let v ← readAt new_path r2
  let new_path ← writeAt new_path r1 v
  writeAt new_path r2 temp

/-- A fresh `new int[k]`.  Its content is indeterminate in C++; `init`
overwrites every cell before any read. -/
def alloc (k : Nat) : Path := List.replicate k 0

/-- Lines 57–60 (and 62–65, 67–70) on a freshly allocated array:
`p[0] = p[n] = 0; for (i = 1; i < n; i++) p[i] = i;` -/
def initPath (n : Nat) (fresh : Path) : Option Path := do
  let p ← writeAt fresh n 0
  let p ← writeAt p 0 0
  forLoop (fun i p => writeAt p i i) (n - 1) 1 p

/-- Line 75: `(rand() % (n - 1)) + 1`, where `v` is the value returned by
`rand()`.  The remainder is C++ `%` on `int` (truncated); a zero divisor is
undefined behaviour. -/
def generateRandomNumber (n : Nat) (v : Nat) : Option Nat :=
  let m : Int := (n : Int) - 1
  if m = 0 then none else some (Int.tmod (v : Int) m + 1).toNat

/-- The state threaded by the loop `for (k = 0; k < limit + 1; k++) swap(i++, j--, new_path)`. -/
structure TwoOptLoop where
  i : Nat
  j : Nat
  new_path : Path
deriving DecidableEq, Repr

/-- Lines 78–97.  `lo` and `hi` are `r1` and `r2` after the reordering of
lines 84–89, so `hi - lo + 1` is taken in `Nat`; the loop runs for
`k = 0, ..., limit`, and the index `j` is never decremented below zero before
its last use. -/
def two_opt (r1 r2 : Nat) (new_path : Path) : Option Path :=
  let lo := if r1 > r2 then r2 else r1
  let hi := if r1 > r2 then r1 else r2
  let limit := (hi - lo + 1) / 2
  (forLoop (fun _ (st : TwoOptLoop) =>
        (swap st.i st.j st.new_path).map (fun p => (⟨st.i + 1, st.j - 1, p⟩ : TwoOptLoop)))
      (limit + 1) 0 ⟨lo, hi, new_path⟩).map (fun st => st.new_path)

/-- Truncation toward zero of a rational. -/
def truncate (q : ℚ) : Int := Int.tdiv q.num q.den

/-- The smallest value of the 32-bit `int`. -/
def INT_MIN : Int := -2147483648

/-- The largest value of the 32-bit `int`. -/
def INT_MAX : Int := 2147483647

/-- Conversion `double → int`: truncation toward zero when the truncated value
fits the 32-bit `int`.  Outside that range the conversion is undefined
behaviour in C++; the x86-64 conversion instruction then yields `INT_MIN`. -/
def toInt (q : ℚ) : Int :=
  if INT_MIN ≤ truncate q ∧ truncate q ≤ INT_MAX then truncate q else INT_MIN

/-- Lines 99–105: `int cost = 0; for (i = 0; i < n; i++)
cost += adjacency_matrix[path[i]][path[i + 1]]; return cost;`
The compound assignment adds in `double` and converts the sum back to the
32-bit `int` on every iteration. -/
def getCost (adjacency_matrix : Matrix) (n : Nat) (path : Path) : Option Int :=
  forLoop (fun i (cost : Int) => do
      let a ← readAt path i
      let b ← readAt path (i + 1)
      let row ← adjacency_matrix[a]?
      let d ← row[b]?
      pure (toInt ((cost : ℚ) + d)))
    n 0 0

/-- One report printed by `retraceMinPath` (without the elapsed time). -/
structure Report where
  cost : Int
  cities : List Nat
deriving DecidableEq, Repr

/-- The global mutable state. -/
structure State where
  curr_path : Path
  new_path : Path
  min_path : Path
  temparature : ℚ
  out : List Report
deriving DecidableEq, Repr

/-- Lines 55–71, together with the initialiser `temparature = 1e18` of line 15. -/
def init (n : Nat) : Option State := do
  let c ← initPath n (alloc (n + 1))
  let w ← initPath n (alloc (n + 1))
  let m ← initPath n (alloc (n + 1))
  pure ⟨c, w, m, 1e18, []⟩

/-- Lines 107–114: print the cost of `min_path` and `min_path[i] + 1` for `i < n`. -/
def retraceMinPath (adjacency_matrix : Matrix) (n : Nat) (s : State) : Option State := do
  let c ← getCost adjacency_matrix n s.min_path
  let cities ← forLoop (fun i (acc : List Nat) => (readAt s.min_path i).map (fun v => acc ++ [v + 1]))
    n 0 []
  pure { s with out := s.out ++ [⟨c, cities⟩] }

/-- The loop `for (i = 1; i < n; i++) dst[i] = src[i];` (lines 128–129, 141–142, 146–147). -/
def copyInterior (n : Nat) (src dst : Path) : Option Path :=
  forLoop (fun i dst => (readAt src i).bind (writeAt dst i)) (n - 1) 1 dst

/-- Lines 128–129: reset the candidate from the current tour. -/
def resetCandidate (n : Nat) (s : State) : Option State :=
  (copyInterior n s.curr_path s.new_path).map (fun p => { s with new_path := p })

/-- Lines 140–142: `if (prob > randum_number)` promote the candidate to current.
`gain` is the value computed on line 136 and `u` is `randum_number`. -/
def acceptCandidate (accepts : Int → ℚ → ℚ → Bool) (n : Nat) (s : State) (gain : Int) (u : ℚ) :
    Option State :=
  if accepts gain s.temparature u then
    (copyInterior n s.new_path s.curr_path).map (fun p => { s with curr_path := p })
  else some s

/-- Lines 144–149: replace the incumbent by a strictly cheaper candidate and report it. -/
def trackIncumbent (adjacency_matrix : Matrix) (n : Nat) (s : State) : Option State := do
  let cn ← getCost adjacency_matrix n s.new_path
  let cm ← getCost adjacency_matrix n s.min_path
  if cn < cm then do
    let m ← copyInterior n s.new_path s.min_path
    retraceMinPath adjacency_matrix n { s with min_path := m }
  else some s

/-- Lines 134–149, with `r1`, `r2` the positions drawn on lines 131–132 and `u`
the value `randum_number` of line 137. -/
def perturbEvaluate (accepts : Int → ℚ → ℚ → Bool) (adjacency_matrix : Matrix) (n : Nat)
    (s : State) (r1 r2 : Nat) (u : ℚ) : Option State := do
  let cand ← two_opt r1 r2 s.new_path
  let s := { s with new_path := cand }
  let c2 ← getCost adjacency_matrix n s.new_path
  let c1 ← getCost adjacency_matrix n s.curr_path
  let gain := c2 - c1
  let s ← acceptCandidate accepts n s gain u
  trackIncumbent adjacency_matrix n s

/-- The body of the inner loop (lines 128–149) for given positions `r1`, `r2`. -/
def innerBody (accepts : Int → ℚ → ℚ → Bool) (adjacency_matrix : Matrix) (n : Nat)
    (s : State) (r1 r2 : Nat) (u : ℚ) : Option State := do
  let s ← resetCandidate n s
  perturbEvaluate accepts adjacency_matrix n s r1 r2 u

/-- The body of the inner loop (lines 128–149) in source order; `v1`, `v2` are
the values returned by the two `rand()` calls inside `generateRandomNumber`. -/
def innerStep (accepts : Int → ℚ → ℚ → Bool) (adjacency_matrix : Matrix) (n : Nat)
    (s : State) (v1 v2 : Nat) (u : ℚ) : Option State := do
  let s ← resetCandidate n s
  let r1 ← generateRandomNumber n v1
  let r2 ← generateRandomNumber n v2
  perturbEvaluate accepts adjacency_matrix n s r1 r2 u

/-- The embedded example instance (trailing comment of the source file). -/
def exampleMatrix : Matrix := [[0, 1, 1], [1, 0, 2], [1, 1, 0]]

/-- A four-city instance on which reversing the interior of the identity tour
is an improvement (from cost 20 to cost 4). -/
def fourCityMatrix : Matrix := [[0, 5, 5, 1], [1, 0, 5, 5], [5, 1, 0, 5], [5, 5, 1, 0]]

/-- A two-city instance with fractional costs. -/
def fractionalMatrix : Matrix := [[0, 5 / 2], [7 / 2, 0]]

/-- A two-city instance whose tour cost `4 * 10^9` does not fit the 32-bit `int`. -/
def largeCostMatrix : Matrix := [[0, 2000000000], [2000000000, 0]]

/-- The matrix built by `readFile`: `n` rows of `n` entries each. -/
def WellFormed (adjacency_matrix : Matrix) (n : Nat) : Prop :=
  adjacency_matrix.length = n ∧ ∀ row ∈ adjacency_matrix, row.length = n

instance (adjacency_matrix : Matrix) (n : Nat) : Decidable (WellFormed adjacency_matrix n) := by
  unfold WellFormed; infer_instance

/-- The entry `adjacency_matrix[a][b]`, used in statements only (zero outside the matrix). -/
def edgeCost (adjacency_matrix : Matrix) (a b : Nat) : ℚ :=
  (adjacency_matrix.getD a []).getD b 0

/-- The cost of the edge leaving position `i` of a tour. -/
def edgeAt (adjacency_matrix : Matrix) (path : Path) (i : Nat) : ℚ :=
  edgeCost adjacency_matrix (path.getD i 0) (path.getD (i + 1) 0)

/-- A tour array of the data model: `n + 1` cells, city `0` at both ends, and
the interior cells `1 .. n-1` holding a permutation of `1, ..., n-1`. -/
def ValidTour (n : Nat) (p : Path) : Prop :=
  p.length = n + 1 ∧ p[0]? = some 0 ∧ p[n]? = some 0 ∧
    ((p.drop 1).take (n - 1)).Perm (List.range' 1 (n - 1))

instance (n : Nat) (p : Path) : Decidable (ValidTour n p) := by
  unfold ValidTour; infer_instance

/-- The city sequence `min_path[i] + 1`, `i < n`, printed by a report. -/
def printedCities (n : Nat) (p : Path) : List Nat := (p.take n).map (· + 1)

/-- The three live tours are valid tours. -/
def ValidState (n : Nat) (s : State) : Prop :=
  ValidTour n s.curr_path ∧ ValidTour n s.new_path ∧ ValidTour n s.min_path

instance (n : Nat) (s : State) : Decidable (ValidState n s) := by
  unfold ValidState; infer_instance

/-- A position drawn by `generateRandomNumber` for `n ≥ 2`: an interior position. -/
def Interior (n : Nat) (r : Nat) : Prop := 1 ≤ r ∧ r ≤ n - 1

instance (n r : Nat) : Decidable (Interior n r) := by
  unfold Interior; infer_instance

/-- The identity tour `0, 1, ..., n-1, 0`. -/
def identityTour (n : Nat) : Path := List.range n ++ [0]

/-- Every cell `0 .. n` of the array holds a city index below `n`. -/
def CitiesInRange (n : Nat) (p : Path) : Prop :=
  ∀ k, k ≤ n → ∃ v, p[k]? = some v ∧ v < n

/-- The inputs of one inner step at the level of positions: the two positions
returned by `generateRandomNumber` and the acceptance draw `randum_number`. -/
structure Draw where
  r1 : Nat
  r2 : Nat
  u : ℚ
deriving DecidableEq, Repr

/-- Both positions of a draw are interior positions. -/
def Draw.Admissible (n : Nat) (d : Draw) : Prop := Interior n d.r1 ∧ Interior n d.r2

instance (n : Nat) (d : Draw) : Decidable (d.Admissible n) := by
  unfold Draw.Admissible; infer_instance

/-- A finite sequence of inner steps, first draw first. -/
def runBody (accepts : Int → ℚ → ℚ → Bool) (adjacency_matrix : Matrix) (n : Nat) :
    List Draw → State → Option State
  | [], s => some s
  | d :: ds, s =>
    (innerBody accepts adjacency_matrix n s d.r1 d.r2 d.u).bind
      (runBody accepts adjacency_matrix n ds)

/-- Line 151: `temparature *= 0.999`. -/
def cool (s : State) : State := { s with temparature := s.temparature * 0.999 }

/-- The states the program can be in between two executions of the inner-loop
body: the initial state, closed under inner steps with interior positions and
under the cooling of line 151. -/
inductive Reachable (accepts : Int → ℚ → ℚ → Bool) (adjacency_matrix : Matrix) (n : Nat) :
    State → Prop
  | start {s : State} : init n = some s → Reachable accepts adjacency_matrix n s
  | step {s s' : State} {r1 r2 : Nat} {u : ℚ} : Reachable accepts adjacency_matrix n s →
      Interior n r1 → Interior n r2 →
      innerBody accepts adjacency_matrix n s r1 r2 u = some s' →
      Reachable accepts adjacency_matrix n s'
  | cooled {s : State} : Reachable accepts adjacency_matrix n s →
      Reachable accepts adjacency_matrix n (cool s)

/-- The three values one inner step takes from `rand()`: the two raw values
behind the positions and the acceptance draw `rand() / RAND_MAX`. -/
structure Rand where
  v1 : Nat
  v2 : Nat
  u : ℚ
deriving DecidableEq, Repr

/-- Lines 125–150: the loop `while (--i) { body }` entered with counter `i`.
`done` counts the bodies executed since the program started and indexes the
stream `rnd` of random inputs; `fuel` bounds the number of loop tests. -/
def innerLoop (accepts : Int → ℚ → ℚ → Bool) (adjacency_matrix : Matrix) (n : Nat)
    (rnd : Nat → Rand) : Nat → Int → Nat → State → Option (State × Nat)
  | 0, _, _, _ => none
  | fuel + 1, i, done, s =>
    let i := i - 1
    if i ≠ 0 then
      (innerStep accepts adjacency_matrix n s (rnd done).v1 (rnd done).v2 (rnd done).u).bind
        (innerLoop accepts adjacency_matrix n rnd fuel i (done + 1))
    else some (s, done)

/-- Lines 125–153: one iteration of the outer `while (1)` loop. -/
def outerIteration (accepts : Int → ℚ → ℚ → Bool) (adjacency_matrix : Matrix) (n : Nat)
    (rnd : Nat → Rand) (st : State × Nat) : Option (State × Nat) :=
  (innerLoop accepts adjacency_matrix n rnd 100 100 st.2 st.1).map (fun r => (cool r.1, r.2))

/-- Lines 116–155 cut after `k` iterations of the outer loop (the loop itself
never exits); `readFile` has produced `adjacency_matrix` and `n`. -/
def SimulatedAnnealing (accepts : Int → ℚ → ℚ → Bool) (adjacency_matrix : Matrix) (n : Nat)
    (rnd : Nat → Rand) : Nat → Option (State × Nat)
  | 0 => (init n).map (fun s => (s, 0))
  | k + 1 =>
    (SimulatedAnnealing accepts adjacency_matrix n rnd k).bind
      (outerIteration accepts adjacency_matrix n rnd)

/-- The body of the loop of `two_opt` (line 94): `swap(i++, j--, new_path)`. -/
def twoOptStep (st : TwoOptLoop) : Option TwoOptLoop :=
  (swap st.i st.j st.new_path).map (fun p => (⟨st.i + 1, st.j - 1, p⟩ : TwoOptLoop))

/-- The loop state of `two_opt` after the first `count` swap steps, entered
with `i = lo`, `j = hi`; its fields `i`, `j` are the positions the next swap
step exchanges. -/
def twoOptSwaps (count lo hi : Nat) (new_path : Path) : Option TwoOptLoop :=
  forLoop (fun _ st => twoOptStep st) count 0 ⟨lo, hi, new_path⟩

/-- The cells that hold the mirrored element after `two_opt` as coded: the
cells of `[lo, hi]`, except the two middle cells when `hi - lo + 1` is even. -/
def Mirrored (lo hi q : Nat) : Prop :=
  lo ≤ q ∧ q ≤ hi ∧
    ¬ ((hi - lo + 1) % 2 = 0 ∧ (q = (lo + hi - 1) / 2 ∨ q = (lo + hi + 1) / 2))

instance (lo hi q : Nat) : Decidable (Mirrored lo hi q) := by
  unfold Mirrored; infer_instance

/-- The positions `generateRandomNumber` derives from the raw values of one
inner step when `n ≥ 2`, together with the acceptance draw. -/
def positionsOf (n : Nat) (r : Rand) : Draw := ⟨r.v1 % (n - 1) + 1, r.v2 % (n - 1) + 1, r.u⟩

/-- Line 139 over the reals: `prob = 1 / (1 + pow(2.71828, gain / temparature))`. -/
noncomputable def prob (gain temperature : ℝ) : ℝ :=
  1 / (1 + (2.71828 : ℝ) ^ (gain / temperature))

theorem forLoop_invariant {σ : Type} (body : Nat → σ → Option σ) (Inv : Nat → σ → Prop) :
    ∀ (count start : Nat) (s : σ), Inv start s →
      (∀ i t, start ≤ i → i < start + count → Inv i t → ∃ t', body i t = some t' ∧ Inv (i + 1) t') →
      ∃ s', forLoop body count start s = some s' ∧ Inv (start + count) s' := by
  intro count
  induction count with
  | zero => intro start s h _; exact ⟨s, rfl, by simpa using h⟩
  | succ c ih =>
    intro start s h hstep
    obtain ⟨t, ht, hInv⟩ := hstep start s (Nat.le_refl _) (by omega) h
    obtain ⟨s', hs', hInv'⟩ := ih (start + 1) t hInv
      (fun i u h1 h2 hu => hstep i u (by omega) (by omega) hu)
    refine ⟨s', ?_, ?_⟩
    · simp [forLoop, ht, hs']
    · have : start + (c + 1) = start + 1 + c := by omega
      rw [this]; exact hInv'

theorem writeAt_of_lt {a : Path} {i : Nat} (v : Nat) (h : i < a.length) :
    writeAt a i v = some (a.set i v) := by
  simp [writeAt, h]

theorem readAt_of_lt {a : Path} {i : Nat} (h : i < a.length) : readAt a i = some a[i] := by
  simp [readAt, h]

theorem swap_of_lt {p : Path} {i j : Nat} (hi : i < p.length) (hj : j < p.length) :
    swap i j p = some ((p.set i p[j]).set j p[i]) := by
  simp [swap, readAt, writeAt, hi, hj]

theorem set_set_count (p : Path) (i j : Nat) (hi : i < p.length) (hj : j < p.length) (a : Nat) :
    ((p.set i p[j]).set j p[i]).count a = p.count a := by
  rw [List.count_set _ _ _ _ (by simpa using hj), List.count_set _ _ _ _ hi]
  have h1 : (if p[i] == a then 1 else 0) ≤ p.count a := by
    split
    · rename_i h
      have : a = p[i] := by simpa using (beq_iff_eq.mp h).symm
      rw [this]
      exact List.count_pos_iff.mpr (List.getElem_mem hi)
    · omega
  by_cases hij : i = j
  · subst hij
    simp only [List.getElem_set_self]
    omega
  · rw [List.getElem_set_ne hij]
    have h2 : (if p[j] == a then 1 else 0) ≤ p.count a := by
      split
      · rename_i h
        have : a = p[j] := by simpa using (beq_iff_eq.mp h).symm
        rw [this]
        exact List.count_pos_iff.mpr (List.getElem_mem hj)
      · omega
    have h3 : (if p[i] == a then 1 else 0) + (if p[j] == a then 1 else 0) ≤ p.count a := by
      by_cases e1 : p[i] = a <;> by_cases e2 : p[j] = a
      · -- two distinct positions hold `a`
        have hc : 2 ≤ p.count a := by
          subst e1
          have hne : i ≠ j := hij
          have := List.count_set (p[i] + 1) p[i] p i hi
          have hpos : 0 < (p.set i (p[i] + 1)).count p[i] := by
            apply List.count_pos_iff.mpr
            rw [List.mem_iff_getElem]
            refine ⟨j, by simpa using hj, ?_⟩
            rw [List.getElem_set_ne hne]; exact e2
          simp at this
          omega
        simp [e1, e2]; omega
      · simp [e1, e2]; simpa [e1] using h1
      · simp [e1, e2]; simpa [e2] using h2
      · simp [e1, e2]
    omega

theorem swap_perm {p : Path} {i j : Nat} (hi : i < p.length) (hj : j < p.length) :
    ((p.set i p[j]).set j p[i]).Perm p :=
  List.perm_iff_count.mpr (set_set_count p i j hi hj)

/-! ## The perturbation `two_opt` -/

/-- Whatever the two positions inside the array, `two_opt` runs without an
out-of-bounds access, permutes the array, and leaves every cell outside the
chosen range untouched. -/
theorem two_opt_perm_frame (p : Path) (r1 r2 : Nat) (h1 : r1 < p.length) (h2 : r2 < p.length) :
    ∃ p', two_opt r1 r2 p = some p' ∧ p'.length = p.length ∧ p'.Perm p ∧
      ∀ q, (q < min r1 r2 ∨ max r1 r2 < q) → p'[q]? = p[q]? := by
  obtain ⟨lo, hlo⟩ : ∃ lo, lo = (if r1 > r2 then r2 else r1) := ⟨_, rfl⟩
  obtain ⟨hi, hhi⟩ : ∃ hi, hi = (if r1 > r2 then r1 else r2) := ⟨_, rfl⟩
  have hlohi : lo ≤ hi := by subst hlo hhi; split <;> omega
  have hhilt : hi < p.length := by subst hhi; split <;> omega
  have hmin : min r1 r2 = lo := by subst hlo; split <;> omega
  have hmax : max r1 r2 = hi := by subst hhi; split <;> omega
  have key := forLoop_invariant
    (fun _ (st : TwoOptLoop) =>
        (swap st.i st.j st.new_path).map (fun p => (⟨st.i + 1, st.j - 1, p⟩ : TwoOptLoop)))
    (fun k st => st.i = lo + k ∧ st.j = hi - k ∧ st.new_path.length = p.length ∧
      st.new_path.Perm p ∧ ∀ q, (q < lo ∨ hi < q) → st.new_path[q]? = p[q]?)
    ((hi - lo + 1) / 2 + 1) 0 ⟨lo, hi, p⟩
    ⟨rfl, rfl, rfl, List.Perm.refl _, fun _ _ => rfl⟩
    (by
      rintro k ⟨i, j, w⟩ _ hk ⟨hi', hj', hlen, hperm, hframe⟩
      simp only at hi' hj' hlen hperm hframe
      subst hi' hj'
      have hib : lo + k < w.length := by omega
      have hjb : hi - k < w.length := by omega
      refine ⟨⟨lo + k + 1, hi - k - 1, (w.set (lo + k) w[hi - k]).set (hi - k) w[lo + k]⟩, ?_, ?_⟩
      · simp [swap_of_lt hib hjb]
      · refine ⟨(by show lo + k + 1 = lo + (k + 1); omega),
          (by show hi - k - 1 = hi - (k + 1); omega), by simpa using hlen,
          (swap_perm hib hjb).trans hperm, ?_⟩
        intro q hq
        simp only
        rw [List.getElem?_set_ne (by omega), List.getElem?_set_ne (by omega)]
        exact hframe q hq)
  obtain ⟨st, hst, -, -, hlen, hperm, hframe⟩ := key
  refine ⟨st.new_path, ?_, hlen, hperm, ?_⟩
  · simp only [two_opt, ← hlo, ← hhi, hst, Option.map_some']
  · intro q hq
    rw [hmin, hmax] at hq
    exact hframe q hq

/-! ## Copy loops and initialisation -/

/-- The copy loop succeeds on arrays that hold at least `n` cells and overwrites
exactly the cells `1 .. n-1`. -/
theorem copyInterior_spec (n : Nat) (src dst : Path) (hs : n ≤ src.length) (hd : n ≤ dst.length) :
    ∃ d, copyInterior n src dst = some d ∧ d.length = dst.length ∧
      ∀ k, d[k]? = if 1 ≤ k ∧ k < n then src[k]? else dst[k]? := by
  have key := forLoop_invariant
    (fun i dst => (readAt src i).bind (writeAt dst i))
    (fun i d => d.length = dst.length ∧ ∀ k, d[k]? = if 1 ≤ k ∧ k < i then src[k]? else dst[k]?)
    (n - 1) 1 dst ⟨rfl, fun k => by rw [if_neg (by omega)]⟩
    (by
      rintro i d h1 h2 ⟨hlen, hpt⟩
      have his : i < src.length := by omega
      have hid : i < d.length := by omega
      refine ⟨d.set i src[i], ?_, by simpa using hlen, ?_⟩
      · simp [readAt_of_lt his, writeAt_of_lt _ hid]
      · intro k
        rw [List.getElem?_set]
        by_cases hk : i = k
        · subst hk
          rw [if_pos rfl, if_pos hid, if_pos (by omega), List.getElem?_eq_getElem his]
        · rw [if_neg hk, hpt k]
          by_cases c : 1 ≤ k ∧ k < i
          · rw [if_pos c, if_pos (by omega)]
          · rw [if_neg c, if_neg (by omega)])
  obtain ⟨d, hd', hlen, hpt⟩ := key
  refine ⟨d, hd', hlen, fun k => ?_⟩
  rw [hpt k]
  by_cases c : 1 ≤ k ∧ k < n
  · rw [if_pos c, if_pos (by omega)]
  · rw [if_neg c, if_neg (by omega)]

/-- When source and destination already agree on the two cells the loop skips
(positions `0` and `n`), the copy makes the destination equal to the source. -/
theorem copyInterior_eq_src (n : Nat) (src dst : Path) (hs : src.length = n + 1)
    (hd : dst.length = n + 1) (h0 : dst[0]? = src[0]?) (hn : dst[n]? = src[n]?) :
    copyInterior n src dst = some src := by
  obtain ⟨d, hd', hlen, hpt⟩ := copyInterior_spec n src dst (by omega) (by omega)
  rw [hd']
  congr 1
  apply List.ext_getElem?
  intro k
  rw [hpt k]
  by_cases c : 1 ≤ k ∧ k < n
  · rw [if_pos c]
  · rw [if_neg c]
    by_cases k0 : k = 0
    · subst k0; exact h0
    · by_cases kn : k = n
      · subst kn; exact hn
      · rw [List.getElem?_eq_none (by omega), List.getElem?_eq_none (by omega)]

theorem identityTour_getElem? (n k : Nat) :
    (identityTour n)[k]? = if k < n then some k else if k = n then some 0 else none := by
  unfold identityTour
  by_cases h : k < n
  · rw [if_pos h, List.getElem?_append_left (by simpa using h)]
    simp [h]
  · rw [if_neg h, List.getElem?_append_right (by simpa using h)]
    by_cases e : k = n
    · simp [e]
    · rw [if_neg e]
      simp only [List.length_range]
      rw [List.getElem?_eq_none]
      simp; omega

/-- The initialisation of one tour does not depend on the content of the fresh array. -/
theorem initPath_eq (n : Nat) (fresh : Path) (h : fresh.length = n + 1) :
    initPath n fresh = some (identityTour n) := by
  have key := forLoop_invariant
    (fun i (p : Path) => writeAt p i i)
    (fun i p => p.length = n + 1 ∧ ∀ k, p[k]? =
      if 1 ≤ k ∧ k < i then some k else ((fresh.set n 0).set 0 0)[k]?)
    (n - 1) 1 ((fresh.set n 0).set 0 0) ⟨by simpa using h, fun k => by rw [if_neg (by omega)]⟩
    (by
      rintro i p h1 h2 ⟨hlen, hpt⟩
      have hip : i < p.length := by omega
      refine ⟨p.set i i, writeAt_of_lt _ hip, by simpa using hlen, ?_⟩
      intro k
      rw [List.getElem?_set]
      by_cases hk : i = k
      · subst hk
        rw [if_pos rfl, if_pos hip, if_pos (by omega)]
      · rw [if_neg hk, hpt k]
        by_cases c : 1 ≤ k ∧ k < i
        · rw [if_pos c, if_pos (by omega)]
        · rw [if_neg c, if_neg (by omega)])
  obtain ⟨p, hp, hlen, hpt⟩ := key
  have h1 : writeAt fresh n 0 = some (fresh.set n 0) := writeAt_of_lt _ (by omega)
  have h2 : writeAt (fresh.set n 0) 0 0 = some ((fresh.set n 0).set 0 0) :=
    writeAt_of_lt _ (by simp; omega)
  have : initPath n fresh = some p := by
    simp only [initPath, h1, h2, Option.bind_eq_bind, Option.some_bind, hp]
  rw [this]
  congr 1
  apply List.ext_getElem?
  intro k
  rw [hpt k, identityTour_getElem?, List.getElem?_set, List.getElem?_set]
  by_cases c : 1 ≤ k ∧ k < 1 + (n - 1)
  · rw [if_pos c, if_pos (by omega)]
  · rw [if_neg c]
    by_cases k0 : k = 0
    · subst k0
      rw [if_pos rfl, if_pos (by simp; omega)]
      by_cases n0 : 0 < n
      · rw [if_pos n0]
      · rw [if_neg n0, if_pos (by omega)]
    · rw [if_neg (by omega)]
      by_cases kn : k = n
      · subst kn
        simp [h]
      · rw [if_neg (by omega), if_neg (by omega), if_neg kn]
        apply List.getElem?_eq_none
        omega

theorem init_eq (n : Nat) :
    init n = some ⟨identityTour n, identityTour n, identityTour n, 1e18, []⟩ := by
  simp [init, initPath_eq n (alloc (n + 1)) (by simp [alloc])]

/-! ## The cost evaluator -/

theorem matrix_lookup {M : Matrix} {n a b : Nat} (hM : WellFormed M n) (ha : a < n) (hb : b < n) :
    ∃ row, M[a]? = some row ∧ row[b]? = some (edgeCost M a b) := by
  have hal : a < M.length := by rw [hM.1]; exact ha
  have hrow : (M[a]).length = n := hM.2 _ (List.getElem_mem hal)
  refine ⟨M[a], List.getElem?_eq_getElem hal, ?_⟩
  have hbl : b < (M[a]).length := by rw [hrow]; exact hb
  rw [List.getElem?_eq_getElem hbl]
  simp [edgeCost, List.getD_eq_getElem?_getD, List.getElem?_eq_getElem hal,
    List.getElem?_eq_getElem hbl]

/-- Loop-invariant rule for `getCost` on an array whose cells index the matrix. -/
theorem getCost_invariant {M : Matrix} {n : Nat} {p : Path} (hM : WellFormed M n)
    (hp : CitiesInRange n p) (Inv : Nat → Int → Prop) (h0 : Inv 0 0)
    (hstep : ∀ i c, i < n → Inv i c → Inv (i + 1) (toInt ((c : ℚ) + edgeAt M p i))) :
    ∃ c, getCost M n p = some c ∧ Inv n c := by
  have key := forLoop_invariant
    (fun i (cost : Int) => do
      let a ← readAt p i
      let b ← readAt p (i + 1)
      let row ← M[a]?
      let d ← row[b]?
      pure (toInt ((cost : ℚ) + d)))
    Inv n 0 0 h0
    (by
      intro i c _ hi hInv
      obtain ⟨a, ha, han⟩ := hp i (by omega)
      obtain ⟨b, hb, hbn⟩ := hp (i + 1) (by omega)
      obtain ⟨row, hrow, hd⟩ := matrix_lookup hM han hbn
      refine ⟨toInt ((c : ℚ) + edgeAt M p i), ?_, hstep i c (by omega) hInv⟩
      have e : edgeAt M p i = edgeCost M a b := by
        simp [edgeAt, List.getD_eq_getElem?_getD, ha, hb]
      simp [readAt, ha, hb, hrow, hd, e])
  obtain ⟨c, hc, hInv⟩ := key
  exact ⟨c, hc, by simpa using hInv⟩

theorem getCost_total {M : Matrix} {n : Nat} {p : Path} (hM : WellFormed M n)
    (hp : CitiesInRange n p) : ∃ c, getCost M n p = some c := by
  obtain ⟨c, hc, -⟩ := getCost_invariant hM hp (fun _ _ => True) trivial (fun _ _ _ _ => trivial)
  exact ⟨c, hc⟩

theorem truncate_of_nonneg {q : ℚ} (h : 0 ≤ q) : truncate q = ⌊q⌋ := by
  unfold truncate
  rw [Rat.floor_def, Int.tdiv_eq_ediv (Rat.num_nonneg.mpr h) (by exact_mod_cast Nat.zero_le _)]

theorem truncate_eq (q : ℚ) : truncate q = if 0 ≤ q then ⌊q⌋ else ⌈q⌉ := by
  by_cases h : 0 ≤ q
  · rw [if_pos h, truncate_of_nonneg h]
  · rw [if_neg h]
    have hneg : 0 ≤ -q := by linarith
    have h1 : truncate (-q) = ⌊-q⌋ := truncate_of_nonneg hneg
    have h2 : truncate (-q) = - truncate q := by
      unfold truncate
      rw [Rat.neg_num, Rat.neg_den, Int.neg_tdiv]
    rw [Int.floor_neg] at h1
    omega

/-! ## Reports -/

theorem printed_loop (n : Nat) (p : Path) (h : n ≤ p.length) :
    forLoop (fun i (acc : List Nat) => (readAt p i).map (fun v => acc ++ [v + 1])) n 0 []
      = some (printedCities n p) := by
  have key := forLoop_invariant
    (fun i (acc : List Nat) => (readAt p i).map (fun v => acc ++ [v + 1]))
    (fun i acc => acc = printedCities i p) n 0 [] (by simp [printedCities])
    (by
      intro i acc _ hi hacc
      have hip : i < p.length := by omega
      refine ⟨acc ++ [p[i] + 1], by simp [readAt_of_lt hip], ?_⟩
      subst hacc
      show printedCities i p ++ [p[i] + 1] = printedCities (i + 1) p
      unfold printedCities
      rw [List.take_succ, List.map_append, List.getElem?_eq_getElem hip]
      rfl)
  obtain ⟨acc, hacc, e⟩ := key
  rw [hacc, e]; simp

theorem retraceMinPath_eq {M : Matrix} {n : Nat} {s : State} {c : Int}
    (hc : getCost M n s.min_path = some c) (h : n ≤ s.min_path.length) :
    retraceMinPath M n s = some { s with out := s.out ++ [⟨c, printedCities n s.min_path⟩] } := by
  simp [retraceMinPath, hc, printed_loop n s.min_path h]

/-! ## Valid tours -/

theorem tour_decompose {n : Nat} {p : Path} {a b : Nat} (hn : 1 ≤ n) (hlen : p.length = n + 1)
    (h0 : p[0]? = some a) (hlast : p[n]? = some b) :
    p = a :: ((p.drop 1).take (n - 1) ++ [b]) := by
  apply List.ext_getElem?
  intro k
  cases k with
  | zero => simpa using h0
  | succ k =>
    rw [List.getElem?_cons_succ]
    by_cases hk : k < n - 1
    · rw [List.getElem?_append_left (by simp; omega), List.getElem?_take_of_lt hk,
        List.getElem?_drop, Nat.add_comm]
    · rw [List.getElem?_append_right (by simp; omega)]
      have hl : ((p.drop 1).take (n - 1)).length = n - 1 := by simp; omega
      rw [hl]
      by_cases e : k = n - 1
      · have : k + 1 = n := by omega
        rw [this, hlast, e]; simp
      · rw [List.getElem?_eq_none (by omega), List.getElem?_eq_none (by simp; omega)]

theorem validTour_identity (n : Nat) : ValidTour n (identityTour n) := by
  refine ⟨by simp [identityTour], ?_, ?_, ?_⟩
  · rw [identityTour_getElem?]
    by_cases h : 0 < n
    · rw [if_pos h]
    · rw [if_neg h, if_pos (by omega)]
  · rw [identityTour_getElem?, if_neg (by omega), if_pos rfl]
  · have : ((identityTour n).drop 1).take (n - 1) = List.range' 1 (n - 1) := by
      apply List.ext_getElem?
      intro k
      by_cases hk : k < n - 1
      · rw [List.getElem?_take_of_lt hk, List.getElem?_drop, identityTour_getElem?,
          if_pos (by omega), List.getElem?_range' _ _ hk]
        simp
      · rw [List.getElem?_eq_none (by simp; omega), List.getElem?_eq_none (by simp; omega)]
    rw [this]

theorem ValidTour.citiesInRange {n : Nat} {p : Path} (hn : 1 ≤ n) (h : ValidTour n p) :
    CitiesInRange n p := by
  obtain ⟨hlen, h0, hlast, hperm⟩ := h
  intro k hk
  by_cases k0 : k = 0
  · subst k0; exact ⟨0, h0, by omega⟩
  by_cases kn : k = n
  · subst kn; exact ⟨0, hlast, by omega⟩
  have hkl : k < p.length := by omega
  refine ⟨p[k], List.getElem?_eq_getElem hkl, ?_⟩
  have hmem : p[k] ∈ (p.drop 1).take (n - 1) := by
    rw [List.mem_iff_getElem?]
    refine ⟨k - 1, ?_⟩
    rw [List.getElem?_take_of_lt (by omega), List.getElem?_drop,
      show 1 + (k - 1) = k by omega, List.getElem?_eq_getElem hkl]
  have := (hperm.mem_iff).mp hmem
  rw [List.mem_range'_1] at this
  omega

/-- A permutation of a valid tour that keeps both end cells is a valid tour. -/
theorem ValidTour.of_perm {n : Nat} {p q : Path} (hn : 1 ≤ n) (h : ValidTour n p)
    (hlen : q.length = p.length) (hperm : q.Perm p) (h0 : q[0]? = p[0]?) (hlast : q[n]? = p[n]?) :
    ValidTour n q := by
  obtain ⟨hl, hp0, hpn, hpi⟩ := h
  refine ⟨by omega, by rw [h0, hp0], by rw [hlast, hpn], ?_⟩
  have dp := tour_decompose hn hl hp0 hpn
  have dq := tour_decompose hn (by omega : q.length = n + 1) (by rw [h0, hp0]) (by rw [hlast, hpn])
  rw [dp, dq] at hperm
  have h1 := (List.perm_cons 0).mp hperm
  have h2 := (List.perm_append_right_iff [0]).mp h1
  exact h2.trans hpi

/-! ## One inner step on a valid state -/

theorem two_opt_valid {n : Nat} {p : Path} {r1 r2 : Nat} (hn : 2 ≤ n) (hp : ValidTour n p)
    (h1 : Interior n r1) (h2 : Interior n r2) :
    ∃ cand, two_opt r1 r2 p = some cand ∧ ValidTour n cand := by
  have hl := hp.1
  obtain ⟨cand, hc, hlen, hperm, hframe⟩ :=
    two_opt_perm_frame p r1 r2 (by unfold Interior at h1; omega) (by unfold Interior at h2; omega)
  refine ⟨cand, hc, ValidTour.of_perm (by omega) hp hlen hperm ?_ ?_⟩
  · exact hframe 0 (Or.inl (by unfold Interior at h1 h2; omega))
  · exact hframe n (Or.inr (by unfold Interior at h1 h2; omega))

/-- Complete description of one execution of the inner-loop body on a valid state. -/
theorem innerBody_spec (accepts : Int → ℚ → ℚ → Bool) {M : Matrix} {n : Nat} (hn : 2 ≤ n)
    (hM : WellFormed M n) {s : State} (hs : ValidState n s) {r1 r2 : Nat}
    (h1 : Interior n r1) (h2 : Interior n r2) (u : ℚ) :
    ∃ cand cn c1 cm, two_opt r1 r2 s.curr_path = some cand ∧ ValidTour n cand ∧
      getCost M n cand = some cn ∧ getCost M n s.curr_path = some c1 ∧
      getCost M n s.min_path = some cm ∧
      innerBody accepts M n s r1 r2 u = some
        { curr_path := if accepts (cn - c1) s.temparature u then cand else s.curr_path
          new_path := cand
          min_path := if cn < cm then cand else s.min_path
          temparature := s.temparature
          out := if cn < cm then s.out ++ [⟨cn, printedCities n cand⟩] else s.out } := by
  obtain ⟨hc, hw, hm⟩ := hs
  obtain ⟨cand, hcand, hv⟩ := two_opt_valid hn hc h1 h2
  obtain ⟨cn, hcn⟩ := getCost_total hM (hv.citiesInRange (by omega))
  obtain ⟨c1, hc1⟩ := getCost_total hM (hc.citiesInRange (by omega))
  obtain ⟨cm, hcm⟩ := getCost_total hM (hm.citiesInRange (by omega))
  refine ⟨cand, cn, c1, cm, hcand, hv, hcn, hc1, hcm, ?_⟩
  have hreset : copyInterior n s.curr_path s.new_path = some s.curr_path :=
    copyInterior_eq_src n _ _ hc.1 hw.1 (by rw [hw.2.1, hc.2.1]) (by rw [hw.2.2.1, hc.2.2.1])
  have haccept : copyInterior n cand s.curr_path = some cand :=
    copyInterior_eq_src n _ _ hv.1 hc.1 (by rw [hv.2.1, hc.2.1]) (by rw [hv.2.2.1, hc.2.2.1])
  have htrack : copyInterior n cand s.min_path = some cand :=
    copyInterior_eq_src n _ _ hv.1 hm.1 (by rw [hv.2.1, hm.2.1]) (by rw [hv.2.2.1, hm.2.2.1])
  have hret : ∀ t : State, t.min_path = cand →
      retraceMinPath M n t = some { t with out := t.out ++ [⟨cn, printedCities n cand⟩] } := by
    intro t ht
    have := retraceMinPath_eq (M := M) (n := n) (s := t) (c := cn) (by rw [ht]; exact hcn)
      (by rw [ht, hv.1]; omega)
    rw [this, ht]
  unfold innerBody resetCandidate perturbEvaluate acceptCandidate trackIncumbent
  simp only [hreset, Option.map_some', Option.bind_eq_bind, Option.some_bind, hcand, hcn, hc1]
  cases ha : accepts (cn - c1) s.temparature u <;> by_cases hlt : cn < cm <;>
    simp [ha, hlt, haccept, htrack, hcn, hcm, hret]

theorem innerBody_valid (accepts : Int → ℚ → ℚ → Bool) {M : Matrix} {n : Nat} (hn : 2 ≤ n)
    (hM : WellFormed M n) {s : State} (hs : ValidState n s) {r1 r2 : Nat}
    (h1 : Interior n r1) (h2 : Interior n r2) (u : ℚ) :
    ∃ s', innerBody accepts M n s r1 r2 u = some s' ∧ ValidState n s' ∧
      s'.temparature = s.temparature := by
  obtain ⟨cand, cn, c1, cm, -, hv, -, -, -, hstep⟩ := innerBody_spec accepts hn hM hs h1 h2 u
  refine ⟨_, hstep, ⟨?_, hv, ?_⟩, rfl⟩
  · show ValidTour n (if _ then _ else _)
    split
    · exact hv
    · exact hs.1
  · show ValidTour n (if _ then _ else _)
    split
    · exact hv
    · exact hs.2.2

/-! ## Position draws -/

theorem generateRandomNumber_of_two_le {n : Nat} (hn : 2 ≤ n) (v : Nat) :
    generateRandomNumber n v = some (v % (n - 1) + 1) := by
  unfold generateRandomNumber
  have hm : ((n : Int) - 1) = ((n - 1 : Nat) : Int) := by omega
  simp only [hm]
  rw [if_neg (by omega)]
  rfl

theorem interior_of_mod {n : Nat} (hn : 2 ≤ n) (v : Nat) : Interior n (v % (n - 1) + 1) := by
  have := Nat.mod_lt v (show 0 < n - 1 by omega)
  unfold Interior
  omega

/-- For `n ≥ 2` the inner step in source order is the body at the generated positions. -/
theorem innerStep_eq_innerBody (accepts : Int → ℚ → ℚ → Bool) (M : Matrix) {n : Nat}
    (hn : 2 ≤ n) (s : State) (v1 v2 : Nat) (u : ℚ) :
    innerStep accepts M n s v1 v2 u =
      innerBody accepts M n s (v1 % (n - 1) + 1) (v2 % (n - 1) + 1) u := by
  simp [innerStep, innerBody, generateRandomNumber_of_two_le hn]

/-! ## Sequences of steps -/

theorem runBody_invariant (accepts : Int → ℚ → ℚ → Bool) (M : Matrix) (n : Nat)
    (P : State → Prop)
    (hP : ∀ s r1 r2 u, P s → Interior n r1 → Interior n r2 →
      ∃ s', innerBody accepts M n s r1 r2 u = some s' ∧ P s') :
    ∀ (draws : List Draw) (s : State), P s → (∀ d ∈ draws, d.Admissible n) →
      ∃ s', runBody accepts M n draws s = some s' ∧ P s' := by
  intro draws
  induction draws with
  | nil => intro s hs _; exact ⟨s, rfl, hs⟩
  | cons d ds ih =>
    intro s hs hd
    have hadm := hd d (List.mem_cons_self _ _)
    obtain ⟨t, ht, hPt⟩ := hP s d.r1 d.r2 d.u hs hadm.1 hadm.2
    obtain ⟨s', hs', hPs'⟩ := ih t hPt (fun e he => hd e (List.mem_cons_of_mem _ he))
    exact ⟨s', by simp [runBody, ht, hs'], hPs'⟩

theorem validState_init {n : Nat} {s : State} (h : init n = some s) : ValidState n s := by
  rw [init_eq] at h
  cases h
  exact ⟨validTour_identity n, validTour_identity n, validTour_identity n⟩

theorem Reachable.valid {accepts : Int → ℚ → ℚ → Bool} {M : Matrix} {n : Nat} (hn : 2 ≤ n)
    (hM : WellFormed M n) {s : State} (h : Reachable accepts M n s) : ValidState n s := by
  induction h with
  | start h0 => exact validState_init h0
  | step _ h1 h2 hstep ih =>
    obtain ⟨s', hs', hv, -⟩ := innerBody_valid accepts hn hM ih h1 h2 _
    rw [hs'] at hstep
    cases hstep
    exact hv
  | cooled _ ih => exact ih

/-! ## Claims -/

/-- C1: permutation validity is an invariant of the annealer.  For `n ≥ 2`, from
the state built by `init`, every finite sequence of inner steps with positions
in `[1, n-1]` and arbitrary acceptance outcome runs to completion, and in the
state it reaches each of `curr_path`, `new_path`, `min_path` has `n + 1` cells,
holds `0` at positions `0` and `n`, and holds a permutation of `1, ..., n-1` at
positions `1 .. n-1`. -/
theorem permutation_validity (accepts : Int → ℚ → ℚ → Bool) (M : Matrix) (n : Nat)
    (hn : 2 ≤ n) (hM : WellFormed M n) (draws : List Draw)
    (hd : ∀ d ∈ draws, d.Admissible n) :
    ∃ s, (init n).bind (runBody accepts M n draws) = some s ∧
      ValidTour n s.curr_path ∧ ValidTour n s.new_path ∧ ValidTour n s.min_path := by
  obtain ⟨s, hs, hv⟩ := runBody_invariant accepts M n (ValidState n)
    (fun s r1 r2 u hs h1 h2 => by
      obtain ⟨s', hs', hv, -⟩ := innerBody_valid accepts hn hM hs h1 h2 u
      exact ⟨s', hs', hv⟩)
    draws _ (validState_init (init_eq n)) hd
  exact ⟨s, by rw [init_eq]; exact hs, hv⟩

theorem permutation_validity_witness :
    ∃ s, (init 3).bind (runBody (fun _ _ _ => true) exampleMatrix 3 [⟨1, 2, 0⟩, ⟨2, 2, 1⟩]) = some s ∧
      ValidTour 3 s.curr_path ∧ ValidTour 3 s.new_path ∧ ValidTour 3 s.min_path :=
  permutation_validity (fun _ _ _ => true) exampleMatrix 3 (by decide) (by decide)
    [⟨1, 2, 0⟩, ⟨2, 2, 1⟩] (by decide)

/-- C2: on the tour `[0,1,2,3,4,0]` with `r1 = 1`, `r2 = 4` the code does not
produce the reversal `[0,4,3,2,1,0]`: the loop performs `limit + 1 = 3` swaps,
the third of which swaps positions `3` and `2` back, and the result is
`[0,4,2,3,1,0]`. -/
theorem two_opt_even_segment_not_reversed :
    two_opt 1 4 [0, 1, 2, 3, 4, 0] = some [0, 4, 2, 3, 1, 0] ∧
      two_opt 1 4 [0, 1, 2, 3, 4, 0] ≠ some [0, 4, 3, 2, 1, 0] := by
  decide

/-- C6: `init` produces three identical identity tours `0, 1, ..., n-1, 0`: each
array has `n + 1` cells, cell `i` holds `i` for `i < n`, and cell `n` holds `0`.
(This holds for every `n`, in particular for `n ≥ 1`.) -/
theorem init_identity_tours (n : Nat) :
    ∃ s, init n = some s ∧
      s.curr_path = List.range n ++ [0] ∧ s.new_path = List.range n ++ [0] ∧
      s.min_path = List.range n ++ [0] ∧
      ∀ p ∈ [s.curr_path, s.new_path, s.min_path],
        p.length = n + 1 ∧ (∀ i, i < n → p[i]? = some i) ∧ p[n]? = some 0 := by
  refine ⟨_, init_eq n, rfl, rfl, rfl, ?_⟩
  intro p hp
  have : p = identityTour n := by
    simp only [List.mem_cons, List.mem_singleton, List.not_mem_nil, or_false, or_self] at hp
    exact hp
  subst this
  refine ⟨by simp [identityTour], fun i hi => ?_, ?_⟩
  · rw [identityTour_getElem?, if_pos hi]
  · rw [identityTour_getElem?, if_neg (by omega), if_pos rfl]

/-- C9: for `n = 1` the position draw takes a remainder by `n - 1 = 0`, so
`generateRandomNumber` fails for every value of `rand()`, and with it the inner
step, from any state, in particular from the initial state with all three
tours `[0, 0]`: the step is not a no-op. -/
theorem single_city_draw_fails :
    init 1 = some ⟨[0, 0], [0, 0], [0, 0], 1e18, []⟩ ∧
      (∀ v, generateRandomNumber 1 v = none) ∧
      ∀ (accepts : Int → ℚ → ℚ → Bool) (M : Matrix) (s : State) (v1 v2 : Nat) (u : ℚ),
        innerStep accepts M 1 s v1 v2 u = none := by
  have h : ∀ v, generateRandomNumber 1 v = none := by
    intro v
    simp [generateRandomNumber]
  refine ⟨init_eq 1, h, ?_⟩
  intro accepts M s v1 v2 u
  unfold innerStep
  cases resetCandidate 1 s <;> simp [h]

theorem getCost_example_identity : getCost exampleMatrix 3 [0, 1, 2, 0] = some 4 := by
  norm_num [getCost, forLoop, readAt, toInt, truncate, INT_MIN, INT_MAX, exampleMatrix]

theorem getCost_example_other : getCost exampleMatrix 3 [0, 2, 1, 0] = some 3 := by
  norm_num [getCost, forLoop, readAt, toInt, truncate, INT_MIN, INT_MAX, exampleMatrix]

theorem validTour_three {p : Path} (h : ValidTour 3 p) : p = [0, 1, 2, 0] ∨ p = [0, 2, 1, 0] := by
  obtain ⟨hlen, h0, h3, hperm⟩ := h
  match p, hlen with
  | [a, b, c, d], _ =>
    simp only [List.getElem?_cons_zero, List.getElem?_cons_succ, Option.some.injEq] at h0 h3
    subst h0 h3
    have h1 : 1 = b ∨ 1 = c := by
      have := hperm.mem_iff (a := 1)
      simpa using this.mpr (by simp)
    have h2 : 2 = b ∨ 2 = c := by
      have := hperm.mem_iff (a := 2)
      simpa using this.mpr (by simp)
    have : (b = 1 ∧ c = 2) ∨ (b = 2 ∧ c = 1) := by omega
    rcases this with ⟨rfl, rfl⟩ | ⟨rfl, rfl⟩
    · exact Or.inl rfl
    · exact Or.inr rfl

/-- C7 (refuted as stated): on the embedded example instance the two valid
tours do not both cost 4. -/
theorem example_tours_not_both_four :
    ¬ (getCost exampleMatrix 3 [0, 1, 2, 0] = some 4 ∧
        getCost exampleMatrix 3 [0, 2, 1, 0] = some 4) := by
  rw [getCost_example_other]
  simp

/-- C7 (amended): on the embedded example instance `getCost [0,1,2,0] = 4` and
`getCost [0,2,1,0] = 3` (the matrix is not symmetric: `cost[1][2] = 2` but
`cost[2][1] = 1`); these are the only valid tours, so the minimum cost over all
valid tours is 3. -/
theorem example_tour_costs :
    getCost exampleMatrix 3 [0, 1, 2, 0] = some 4 ∧
      getCost exampleMatrix 3 [0, 2, 1, 0] = some 3 ∧
      ValidTour 3 [0, 1, 2, 0] ∧ ValidTour 3 [0, 2, 1, 0] ∧
      ∀ p, ValidTour 3 p → ∃ c, getCost exampleMatrix 3 p = some c ∧ 3 ≤ c := by
  refine ⟨getCost_example_identity, getCost_example_other, by decide, by decide, ?_⟩
  intro p hp
  rcases validTour_three hp with rfl | rfl
  · exact ⟨4, getCost_example_identity, by decide⟩
  · exact ⟨3, getCost_example_other, by decide⟩

theorem two_opt_three {r1 r2 : Nat} (h1 : Interior 3 r1) (h2 : Interior 3 r2) :
    two_opt r1 r2 [0, 1, 2, 0] = some [0, 1, 2, 0] := by
  have e1 : r1 = 1 ∨ r1 = 2 := by unfold Interior at h1; omega
  have e2 : r2 = 1 ∨ r2 = 2 := by unfold Interior at h2; omega
  rcases e1 with rfl | rfl <;> rcases e2 with rfl | rfl <;> decide

/-- C8: on the embedded example instance (`n = 3`), after every finite sequence
of inner steps from the initial state, with positions in `{1, 2}` and arbitrary
acceptance outcome, the incumbent `min_path` has cost exactly 4; no report of
a lower cost is ever emitted.  (Every draw leaves the tour `[0,1,2,0]` as it
is: a segment of length 1 or 2 is not changed by `two_opt`.) -/
theorem example_incumbent_cost_four (accepts : Int → ℚ → ℚ → Bool) (draws : List Draw)
    (hd : ∀ d ∈ draws, d.Admissible 3) :
    ∃ s, (init 3).bind (runBody accepts exampleMatrix 3 draws) = some s ∧
      getCost exampleMatrix 3 s.min_path = some 4 ∧ s.out = [] := by
  obtain ⟨s, hs, -, -, hm, ho⟩ := runBody_invariant accepts exampleMatrix 3
    (fun s => s.curr_path = [0, 1, 2, 0] ∧ s.new_path = [0, 1, 2, 0] ∧
      s.min_path = [0, 1, 2, 0] ∧ s.out = [])
    (fun s r1 r2 u hs h1 h2 => by
      obtain ⟨hc, hw, hm, ho⟩ := hs
      have hv : ValidState 3 s := by
        refine ⟨?_, ?_, ?_⟩
        · rw [hc]; decide
        · rw [hw]; decide
        · rw [hm]; decide
      obtain ⟨cand, cn, c1, cm, hcand, -, hcn, hc1, hcm, hstep⟩ :=
        innerBody_spec accepts (M := exampleMatrix) (by decide) (by decide) hv h1 h2 u
      rw [hc, two_opt_three h1 h2] at hcand
      cases hcand
      rw [getCost_example_identity] at hcn
      rw [hm, getCost_example_identity] at hcm
      cases hcn
      cases hcm
      refine ⟨_, hstep, ?_, rfl, ?_, ?_⟩
      · simp [hc]
      · simp [hm]
      · simp [ho])
    draws ⟨identityTour 3, identityTour 3, identityTour 3, 1e18, []⟩ ⟨rfl, rfl, rfl, rfl⟩ hd
  refine ⟨s, by rw [init_eq]; exact hs, ?_, ho⟩
  rw [hm]; exact getCost_example_identity

theorem example_incumbent_cost_four_witness :
    ∃ s, (init 3).bind (runBody (fun _ _ _ => true) exampleMatrix 3 [⟨1, 2, 0⟩, ⟨2, 1, 0⟩]) = some s ∧
      getCost exampleMatrix 3 s.min_path = some 4 ∧ s.out = [] :=
  example_incumbent_cost_four (fun _ _ _ => true) [⟨1, 2, 0⟩, ⟨2, 1, 0⟩] (by decide)

/-- One inner step on a valid state either keeps the incumbent and the output,
or lowers the incumbent cost strictly and appends one report carrying the new cost. -/
theorem innerBody_track (accepts : Int → ℚ → ℚ → Bool) {M : Matrix} {n : Nat} (hn : 2 ≤ n)
    (hM : WellFormed M n) {s : State} (hs : ValidState n s) {cm : Int}
    (hcm : getCost M n s.min_path = some cm) {r1 r2 : Nat}
    (h1 : Interior n r1) (h2 : Interior n r2) (u : ℚ) :
    ∃ s' cm', innerBody accepts M n s r1 r2 u = some s' ∧ ValidState n s' ∧
      getCost M n s'.min_path = some cm' ∧ cm' ≤ cm ∧
      ((s'.out = s.out ∧ cm' = cm) ∨
        (∃ cities, s'.out = s.out ++ [⟨cm', cities⟩] ∧ cm' < cm)) := by
  obtain ⟨s', hs', hv, -⟩ := innerBody_valid accepts hn hM hs h1 h2 u
  obtain ⟨cand, cn, c1, cm0, -, -, hcn, -, hcm0, hstep⟩ := innerBody_spec accepts hn hM hs h1 h2 u
  rw [hcm] at hcm0
  cases hcm0
  rw [hstep] at hs'
  cases hs'
  by_cases hlt : cn < cm
  · refine ⟨_, cn, hstep, hv, ?_, by omega, Or.inr ⟨printedCities n cand, ?_, hlt⟩⟩
    · simp [hlt, hcn]
    · simp [hlt]
  · refine ⟨_, cm, hstep, hv, ?_, le_refl _, Or.inl ⟨?_, rfl⟩⟩
    · simp [hlt, hcm]
    · simp [hlt]

/-- C3: the reported incumbent costs are strictly decreasing.  For `n ≥ 2` and
every finite sequence of inner steps from the initial state, the costs in the
output, oldest first, are strictly decreasing, each is strictly below the cost
of the initial identity tour and not below the cost of the current incumbent;
and one further inner step never increases the cost of `min_path` and appends
a report exactly when it strictly decreases it, the report carrying the cost
of `min_path` after the copy. -/
theorem reported_costs_strictly_decreasing (accepts : Int → ℚ → ℚ → Bool) (M : Matrix)
    (n : Nat) (hn : 2 ≤ n) (hM : WellFormed M n) (draws : List Draw)
    (hd : ∀ d ∈ draws, d.Admissible n) :
    ∃ s c0 cm, (init n).bind (runBody accepts M n draws) = some s ∧
      getCost M n (identityTour n) = some c0 ∧ getCost M n s.min_path = some cm ∧ cm ≤ c0 ∧
      (s.out.map Report.cost).Pairwise (fun earlier later => later < earlier) ∧
      (∀ r ∈ s.out, cm ≤ r.cost ∧ r.cost < c0) ∧
      ∀ d : Draw, d.Admissible n →
        ∃ s' cm', innerBody accepts M n s d.r1 d.r2 d.u = some s' ∧
          getCost M n s'.min_path = some cm' ∧ cm' ≤ cm ∧
          ((s'.out = s.out ∧ cm' = cm) ∨
            (∃ cities, s'.out = s.out ++ [⟨cm', cities⟩] ∧ cm' < cm)) := by
  obtain ⟨c0, hc0⟩ := getCost_total hM ((validTour_identity n).citiesInRange (by omega))
  obtain ⟨s, hs, hv, cm, hcm, hle, hpw, hall⟩ := runBody_invariant accepts M n
    (fun s => ValidState n s ∧ ∃ cm, getCost M n s.min_path = some cm ∧ cm ≤ c0 ∧
      (s.out.map Report.cost).Pairwise (fun earlier later => later < earlier) ∧
      ∀ r ∈ s.out, cm ≤ r.cost ∧ r.cost < c0)
    (fun s r1 r2 u hs h1 h2 => by
      obtain ⟨hv, cm, hcm, hle, hpw, hall⟩ := hs
      obtain ⟨s', cm', hs', hv', hcm', hle', hout⟩ := innerBody_track accepts hn hM hv hcm h1 h2 u
      refine ⟨s', hs', hv', cm', hcm', by omega, ?_, ?_⟩
      · rcases hout with ⟨ho, -⟩ | ⟨cities, ho, hlt⟩
        · rw [ho]; exact hpw
        · rw [ho, List.map_append, List.pairwise_append]
          refine ⟨hpw, by simp, ?_⟩
          intro a ha b hb
          simp only [List.map_cons, List.map_nil, List.mem_singleton] at hb
          obtain ⟨r, hr, rfl⟩ := List.mem_map.mp ha
          have := (hall r hr).1
          omega
      · rcases hout with ⟨ho, he⟩ | ⟨cities, ho, hlt⟩
        · rw [ho]
          intro r hr
          have := hall r hr
          omega
        · rw [ho]
          intro r hr
          rcases List.mem_append.mp hr with hr | hr
          · have := hall r hr
            omega
          · simp only [List.mem_singleton] at hr
            subst hr
            exact ⟨le_refl _, by show cm' < c0; omega⟩)
    draws ⟨identityTour n, identityTour n, identityTour n, 1e18, []⟩
    ⟨validState_init (init_eq n), c0, hc0, le_refl _, by simp, by simp⟩ hd
  refine ⟨s, c0, cm, by rw [init_eq]; exact hs, hc0, hcm, hle, hpw, hall, ?_⟩
  intro d hd'
  obtain ⟨s', cm', hs', -, hcm', hle', hout⟩ := innerBody_track accepts hn hM hv hcm hd'.1 hd'.2 d.u
  exact ⟨s', cm', hs', hcm', hle', hout⟩

theorem reported_costs_strictly_decreasing_witness :
    ∃ s c0 cm, (init 4).bind (runBody (fun _ _ _ => false) fourCityMatrix 4
        [⟨1, 3, 0⟩, ⟨2, 2, 0⟩]) = some s ∧
      getCost fourCityMatrix 4 (identityTour 4) = some c0 ∧
      getCost fourCityMatrix 4 s.min_path = some cm ∧ cm ≤ c0 ∧
      (s.out.map Report.cost).Pairwise (fun earlier later => later < earlier) ∧
      (∀ r ∈ s.out, cm ≤ r.cost ∧ r.cost < c0) ∧
      ∀ d : Draw, d.Admissible 4 →
        ∃ s' cm', innerBody (fun _ _ _ => false) fourCityMatrix 4 s d.r1 d.r2 d.u = some s' ∧
          getCost fourCityMatrix 4 s'.min_path = some cm' ∧ cm' ≤ cm ∧
          ((s'.out = s.out ∧ cm' = cm) ∨
            (∃ cities, s'.out = s.out ++ [⟨cm', cities⟩] ∧ cm' < cm)) :=
  reported_costs_strictly_decreasing (fun _ _ _ => false) fourCityMatrix 4 (by decide)
    (by decide) [⟨1, 3, 0⟩, ⟨2, 2, 0⟩] (by decide)

/-- C5: the incumbent is updated exactly when the candidate is strictly
cheaper, independently of the acceptance decision.  In every reachable state
(`n ≥ 2`) and for all positions `r1`, `r2` in `[1, n-1]`, the candidate is
`two_opt r1 r2 curr_path`; after one inner step `new_path` is that candidate,
`min_path` is the candidate (at all positions) if its cost is strictly below
the cost of the old `min_path` and is the old `min_path` otherwise, and a
report is appended in exactly the first case; the resulting `min_path` and
output are the same for any two acceptance outcomes. -/
theorem incumbent_update_independent_of_acceptance (accepts : Int → ℚ → ℚ → Bool)
    (M : Matrix) (n : Nat) (hn : 2 ≤ n) (hM : WellFormed M n) (s : State)
    (hs : Reachable accepts M n s) (r1 r2 : Nat) (h1 : Interior n r1) (h2 : Interior n r2) :
    ∃ cand cn cm, two_opt r1 r2 s.curr_path = some cand ∧ getCost M n cand = some cn ∧
      getCost M n s.min_path = some cm ∧
      (∀ (acc : Int → ℚ → ℚ → Bool) (u : ℚ), ∃ s', innerBody acc M n s r1 r2 u = some s' ∧
        s'.new_path = cand ∧
        s'.min_path = (if cn < cm then cand else s.min_path) ∧
        s'.out = (if cn < cm then s.out ++ [⟨cn, printedCities n cand⟩] else s.out)) ∧
      ∀ (acc₁ acc₂ : Int → ℚ → ℚ → Bool) (u₁ u₂ : ℚ), ∃ s₁ s₂,
        innerBody acc₁ M n s r1 r2 u₁ = some s₁ ∧ innerBody acc₂ M n s r1 r2 u₂ = some s₂ ∧
        s₁.min_path = s₂.min_path ∧ s₁.out = s₂.out := by
  have hv := hs.valid hn hM
  obtain ⟨cand, cn, c1, cm, hcand, -, hcn, hc1, hcm, -⟩ :=
    innerBody_spec accepts hn hM hv h1 h2 0
  have key : ∀ (acc : Int → ℚ → ℚ → Bool) (u : ℚ), ∃ s', innerBody acc M n s r1 r2 u = some s' ∧
      s'.new_path = cand ∧
      s'.min_path = (if cn < cm then cand else s.min_path) ∧
      s'.out = (if cn < cm then s.out ++ [⟨cn, printedCities n cand⟩] else s.out) := by
    intro acc u
    obtain ⟨cand', cn', c1', cm', hcand', -, hcn', -, hcm', hstep⟩ :=
      innerBody_spec acc hn hM hv h1 h2 u
    rw [hcand] at hcand'
    cases hcand'
    rw [hcn] at hcn'
    rw [hcm] at hcm'
    cases hcn'
    cases hcm'
    exact ⟨_, hstep, rfl, rfl, rfl⟩
  refine ⟨cand, cn, cm, hcand, hcn, hcm, key, ?_⟩
  intro acc₁ acc₂ u₁ u₂
  obtain ⟨s₁, e₁, -, m₁, o₁⟩ := key acc₁ u₁
  obtain ⟨s₂, e₂, -, m₂, o₂⟩ := key acc₂ u₂
  exact ⟨s₁, s₂, e₁, e₂, by rw [m₁, m₂], by rw [o₁, o₂]⟩

theorem incumbent_update_independent_of_acceptance_witness :
    ∃ cand cn cm, two_opt 1 3 (identityTour 4) = some cand ∧
      getCost fourCityMatrix 4 cand = some cn ∧
      getCost fourCityMatrix 4 (identityTour 4) = some cm ∧
      (∀ (acc : Int → ℚ → ℚ → Bool) (u : ℚ), ∃ s',
        innerBody acc fourCityMatrix 4
          ⟨identityTour 4, identityTour 4, identityTour 4, 1e18, []⟩ 1 3 u = some s' ∧
        s'.new_path = cand ∧
        s'.min_path = (if cn < cm then cand else identityTour 4) ∧
        s'.out = (if cn < cm then [] ++ [⟨cn, printedCities 4 cand⟩] else [])) ∧
      ∀ (acc₁ acc₂ : Int → ℚ → ℚ → Bool) (u₁ u₂ : ℚ), ∃ s₁ s₂,
        innerBody acc₁ fourCityMatrix 4
          ⟨identityTour 4, identityTour 4, identityTour 4, 1e18, []⟩ 1 3 u₁ = some s₁ ∧
        innerBody acc₂ fourCityMatrix 4
          ⟨identityTour 4, identityTour 4, identityTour 4, 1e18, []⟩ 1 3 u₂ = some s₂ ∧
        s₁.min_path = s₂.min_path ∧ s₁.out = s₂.out :=
  incumbent_update_independent_of_acceptance (fun _ _ _ => true) fourCityMatrix 4 (by decide)
    (by decide) ⟨identityTour 4, identityTour 4, identityTour 4, 1e18, []⟩
    (Reachable.start (init_eq 4)) 1 3 (by decide) (by decide)

theorem edgeCost_nonneg {M : Matrix} (hnn : ∀ row ∈ M, ∀ d ∈ row, 0 ≤ d) (a b : Nat) :
    0 ≤ edgeCost M a b := by
  unfold edgeCost
  rw [List.getD_eq_getElem?_getD, List.getD_eq_getElem?_getD]
  cases ha : M[a]? with
  | none => simp
  | some row =>
    have hrow : row ∈ M := List.getElem?_mem ha
    cases hb : row[b]? with
    | none => simp [hb]
    | some d =>
      have hd : d ∈ row := List.getElem?_mem hb
      simpa [hb] using hnn row hrow d hd

theorem toInt_of_fits {q : ℚ} (h0 : 0 ≤ q) (hfit : ⌊q⌋ ≤ INT_MAX) : toInt q = ⌊q⌋ := by
  unfold toInt
  rw [truncate_of_nonneg h0]
  have hnn : (0 : Int) ≤ ⌊q⌋ := Int.floor_nonneg.mpr h0
  rw [if_pos ⟨by unfold INT_MIN; omega, hfit⟩]

/-- C4 (refuted as stated): on the two-city instance with both costs
`2 * 10^9` the matrix is `2 × 2` and non-negative, the array `[0,1,0]` has
`n + 1` cells with entries below `n`, the sum of the floors of the two edges
is `4 * 10^9`, and `getCost` returns `INT_MIN`: the second conversion to `int`
is out of range. -/
theorem getCost_large_costs_not_sum :
    WellFormed largeCostMatrix 2 ∧ (∀ row ∈ largeCostMatrix, ∀ d ∈ row, (0 : ℚ) ≤ d) ∧
      ([0, 1, 0] : Path).length = 2 + 1 ∧ (∀ v ∈ ([0, 1, 0] : Path), v < 2) ∧
      (∑ i ∈ Finset.range 2, ⌊edgeAt largeCostMatrix [0, 1, 0] i⌋) = 4000000000 ∧
      getCost largeCostMatrix 2 [0, 1, 0] = some (-2147483648) ∧
      getCost largeCostMatrix 2 [0, 1, 0]
        ≠ some (∑ i ∈ Finset.range 2, ⌊edgeAt largeCostMatrix [0, 1, 0] i⌋) := by
  have hsum : (∑ i ∈ Finset.range 2, ⌊edgeAt largeCostMatrix [0, 1, 0] i⌋) = 4000000000 := by
    simp [Finset.sum_range_succ, edgeAt, edgeCost, largeCostMatrix]
  have hcost : getCost largeCostMatrix 2 [0, 1, 0] = some (-2147483648) := by
    norm_num [getCost, forLoop, readAt, toInt, truncate, INT_MIN, INT_MAX, largeCostMatrix]
  refine ⟨by decide, ?_, rfl, by decide, hsum, hcost, ?_⟩
  · simp [largeCostMatrix]
  · rw [hsum, hcost]
    decide

/-- C4 (amended): `getCost` returns the tour cost with each edge truncated to
an integer, as long as that cost fits the 32-bit `int`.  For an `n × n` matrix
of non-negative rational costs and an array of `n + 1` cells with entries
below `n`, if the sum over `i < n` of `⌊cost[path[i]][path[i+1]]⌋` does not
exceed `INT_MAX`, then `getCost` (which truncates the running sum after each
addition) returns that sum. -/
theorem getCost_sum_of_floors (M : Matrix) (n : Nat) (path : Path) (hM : WellFormed M n)
    (hnn : ∀ row ∈ M, ∀ d ∈ row, 0 ≤ d) (hlen : path.length = n + 1)
    (hp : ∀ v ∈ path, v < n)
    (hfit : (∑ i ∈ Finset.range n, ⌊edgeAt M path i⌋) ≤ INT_MAX) :
    getCost M n path = some (∑ i ∈ Finset.range n, ⌊edgeAt M path i⌋) := by
  have hcities : CitiesInRange n path := by
    intro k hk
    have hkl : k < path.length := by omega
    exact ⟨path[k], List.getElem?_eq_getElem hkl, hp _ (List.getElem_mem hkl)⟩
  have hterm : ∀ j, (0 : Int) ≤ ⌊edgeAt M path j⌋ :=
    fun j => Int.floor_nonneg.mpr (edgeCost_nonneg hnn _ _)
  obtain ⟨c, hc, hsum⟩ := getCost_invariant hM hcities
    (fun i c => c = ∑ j ∈ Finset.range i, ⌊edgeAt M path j⌋) (by simp)
    (by
      intro i c hi hInv
      have he : 0 ≤ edgeAt M path i := edgeCost_nonneg hnn _ _
      have hc0 : 0 ≤ c := by
        rw [hInv]
        exact Finset.sum_nonneg (fun j _ => hterm j)
      have hq : (0 : ℚ) ≤ (c : ℚ) + edgeAt M path i := by
        have : (0 : ℚ) ≤ (c : ℚ) := by exact_mod_cast hc0
        linarith
      have hpart : (∑ j ∈ Finset.range (i + 1), ⌊edgeAt M path j⌋)
          ≤ ∑ j ∈ Finset.range n, ⌊edgeAt M path j⌋ :=
        Finset.sum_le_sum_of_subset_of_nonneg
          (Finset.range_subset.mpr (by omega)) (fun j _ _ => hterm j)
      have hfl : ⌊(c : ℚ) + edgeAt M path i⌋
          = ∑ j ∈ Finset.range (i + 1), ⌊edgeAt M path j⌋ := by
        rw [Int.floor_int_add, Finset.sum_range_succ, hInv]
      rw [toInt_of_fits hq (by rw [hfl]; exact le_trans hpart hfit), hfl])
  rw [hc, hsum]

theorem getCost_sum_of_floors_witness :
    getCost fractionalMatrix 2 [0, 1, 0]
      = some (∑ i ∈ Finset.range 2, ⌊edgeAt fractionalMatrix [0, 1, 0] i⌋) :=
  getCost_sum_of_floors fractionalMatrix 2 [0, 1, 0] (by decide)
    (by simp [fractionalMatrix]; norm_num) rfl (by decide)
    (by
      have h1 : ⌊(5 / 2 : ℚ)⌋ = 2 := by rw [Int.floor_eq_iff]; norm_num
      have h2 : ⌊(7 / 2 : ℚ)⌋ = 3 := by rw [Int.floor_eq_iff]; norm_num
      simp [Finset.sum_range_succ, edgeAt, edgeCost, fractionalMatrix, h1, h2, INT_MAX])

/-! ## The loops of `SimulatedAnnealing` -/

theorem retraceMinPath_temparature {M : Matrix} {n : Nat} {s s' : State}
    (h : retraceMinPath M n s = some s') : s'.temparature = s.temparature := by
  unfold retraceMinPath at h
  simp only [Option.bind_eq_bind, Option.bind_eq_some, Option.pure_def, Option.some.injEq] at h
  obtain ⟨c, -, cities, -, rfl⟩ := h
  rfl

theorem acceptCandidate_temparature {accepts : Int → ℚ → ℚ → Bool} {n : Nat} {s s' : State}
    {gain : Int} {u : ℚ} (h : acceptCandidate accepts n s gain u = some s') :
    s'.temparature = s.temparature := by
  unfold acceptCandidate at h
  split at h
  · simp only [Option.map_eq_some'] at h
    obtain ⟨p, -, rfl⟩ := h
    rfl
  · cases h
    rfl

theorem trackIncumbent_temparature {M : Matrix} {n : Nat} {s s' : State}
    (h : trackIncumbent M n s = some s') : s'.temparature = s.temparature := by
  unfold trackIncumbent at h
  simp only [Option.bind_eq_bind, Option.bind_eq_some] at h
  obtain ⟨cn, -, cm, -, h⟩ := h
  split at h
  · simp only [Option.bind_eq_bind, Option.bind_eq_some] at h
    obtain ⟨m, -, h⟩ := h
    rw [retraceMinPath_temparature h]
  · cases h
    rfl

theorem perturbEvaluate_temparature {accepts : Int → ℚ → ℚ → Bool} {M : Matrix} {n : Nat}
    {s s' : State} {r1 r2 : Nat} {u : ℚ}
    (h : perturbEvaluate accepts M n s r1 r2 u = some s') : s'.temparature = s.temparature := by
  unfold perturbEvaluate at h
  simp only [Option.bind_eq_bind, Option.bind_eq_some] at h
  obtain ⟨cand, -, c2, -, c1, -, t, ht, h⟩ := h
  rw [trackIncumbent_temparature h, acceptCandidate_temparature ht]

theorem resetCandidate_temparature {n : Nat} {s s' : State}
    (h : resetCandidate n s = some s') : s'.temparature = s.temparature := by
  unfold resetCandidate at h
  simp only [Option.map_eq_some'] at h
  obtain ⟨p, -, rfl⟩ := h
  rfl

/-- No inner step changes the temperature, whatever the state and the inputs. -/
theorem innerStep_temparature {accepts : Int → ℚ → ℚ → Bool} {M : Matrix} {n : Nat}
    {s s' : State} {v1 v2 : Nat} {u : ℚ}
    (h : innerStep accepts M n s v1 v2 u = some s') : s'.temparature = s.temparature := by
  unfold innerStep at h
  cases ht : resetCandidate n s with
  | none => rw [ht] at h; cases h
  | some t =>
    rw [ht] at h
    cases h1 : generateRandomNumber n v1 with
    | none => rw [h1] at h; cases h
    | some r1 =>
      cases h2 : generateRandomNumber n v2 with
      | none => rw [h1, h2] at h; cases h
      | some r2 =>
        rw [h1, h2] at h
        have h' : perturbEvaluate accepts M n t r1 r2 u = some s' := h
        rw [perturbEvaluate_temparature h', resetCandidate_temparature ht]

theorem innerStep_valid (accepts : Int → ℚ → ℚ → Bool) {M : Matrix} {n : Nat} (hn : 2 ≤ n)
    (hM : WellFormed M n) {s : State} (hs : ValidState n s) (v1 v2 : Nat) (u : ℚ) :
    ∃ s', innerStep accepts M n s v1 v2 u = some s' ∧ ValidState n s' ∧
      s'.temparature = s.temparature := by
  rw [innerStep_eq_innerBody accepts M hn]
  exact innerBody_valid accepts hn hM hs (interior_of_mod hn v1) (interior_of_mod hn v2) u

/-- The loop `while (--i)` entered with `i = m + 1` executes its body exactly
`m` times and exits, provided every body execution succeeds and `fuel > m`. -/
theorem innerLoop_invariant (accepts : Int → ℚ → ℚ → Bool) (M : Matrix) (n : Nat)
    (rnd : Nat → Rand) (P : State → Prop)
    (hP : ∀ s v1 v2 u, P s → ∃ s', innerStep accepts M n s v1 v2 u = some s' ∧ P s') :
    ∀ (m fuel done : Nat) (s : State), P s → m + 1 ≤ fuel →
      ∃ s', innerLoop accepts M n rnd fuel ((m : Int) + 1) done s = some (s', done + m) ∧ P s' := by
  intro m
  induction m with
  | zero =>
    intro fuel done s hs hf
    obtain ⟨f, rfl⟩ : ∃ f, fuel = f + 1 := ⟨fuel - 1, by omega⟩
    exact ⟨s, by simp [innerLoop], hs⟩
  | succ m ih =>
    intro fuel done s hs hf
    obtain ⟨f, rfl⟩ : ∃ f, fuel = f + 1 := ⟨fuel - 1, by omega⟩
    obtain ⟨t, ht, hPt⟩ := hP s (rnd done).v1 (rnd done).v2 (rnd done).u hs
    obtain ⟨s', hs', hPs'⟩ := ih f (done + 1) t hPt (by omega)
    refine ⟨s', ?_, hPs'⟩
    have hne : ((m + 1 : Nat) : Int) + 1 - 1 ≠ 0 := by omega
    have hi : ((m + 1 : Nat) : Int) + 1 - 1 = (m : Int) + 1 := by omega
    unfold innerLoop
    have hne' : ¬ ((m : Int) + 1 = 0) := by omega
    simp only [hne, ne_eq, not_false_eq_true, if_true, ht, Option.some_bind, hi, hs', hne']
    rw [show done + 1 + m = done + (m + 1) by omega]

/-- One outer iteration from a valid state: 99 inner steps, then one cooling. -/
theorem outerIteration_spec (accepts : Int → ℚ → ℚ → Bool) {M : Matrix} {n : Nat} (hn : 2 ≤ n)
    (hM : WellFormed M n) (rnd : Nat → Rand) {s : State} (hs : ValidState n s) (done : Nat) :
    ∃ s', outerIteration accepts M n rnd (s, done) = some (s', done + 99) ∧ ValidState n s' ∧
      s'.temparature = s.temparature * 0.999 := by
  obtain ⟨t, ht, hv, htemp⟩ := innerLoop_invariant accepts M n rnd
    (fun t => ValidState n t ∧ t.temparature = s.temparature)
    (fun t v1 v2 u ht => by
      obtain ⟨t', ht', hv', htemp'⟩ := innerStep_valid accepts hn hM ht.1 v1 v2 u
      exact ⟨t', ht', hv', by rw [htemp', ht.2]⟩)
    99 100 done s ⟨hs, rfl⟩ (by omega)
  have h100 : ((99 : Nat) : Int) + 1 = 100 := by norm_num
  rw [h100] at ht
  refine ⟨cool t, ?_, hv, ?_⟩
  · simp [outerIteration, ht]
  · simp [cool, htemp]

theorem simulatedAnnealing_spec (accepts : Int → ℚ → ℚ → Bool) {M : Matrix} {n : Nat}
    (hn : 2 ≤ n) (hM : WellFormed M n) (rnd : Nat → Rand) (k : Nat) :
    ∃ s, SimulatedAnnealing accepts M n rnd k = some (s, 99 * k) ∧ ValidState n s ∧
      s.temparature = 10 ^ 18 * 0.999 ^ k := by
  induction k with
  | zero =>
    refine ⟨_, by simp [SimulatedAnnealing, init_eq], validState_init (init_eq n), ?_⟩
    norm_num
  | succ k ih =>
    obtain ⟨s, hs, hv, htemp⟩ := ih
    obtain ⟨s', hs', hv', htemp'⟩ := outerIteration_spec accepts hn hM rnd hv (99 * k)
    refine ⟨s', ?_, hv', ?_⟩
    · simp only [SimulatedAnnealing, hs, Option.some_bind, hs']
      congr 2
    · rw [htemp', htemp, pow_succ]
      ring

/-- C10: temperature decay, in exact rational arithmetic.  For `n ≥ 2` the
program reaches the end of every outer iteration; after `k` outer iterations
(that is `99 * k` inner steps) the temperature is `10^18 * 0.999^k`, it is
strictly positive, and the temperature after one more outer iteration is
strictly smaller; no inner step changes the temperature. -/
theorem temperature_decay (accepts : Int → ℚ → ℚ → Bool) (M : Matrix) (n : Nat)
    (hn : 2 ≤ n) (hM : WellFormed M n) (rnd : Nat → Rand) (k : Nat) :
    ∃ s s', SimulatedAnnealing accepts M n rnd k = some (s, 99 * k) ∧
      SimulatedAnnealing accepts M n rnd (k + 1) = some (s', 99 * (k + 1)) ∧
      s.temparature = 10 ^ 18 * 0.999 ^ k ∧ 0 < s.temparature ∧
      s'.temparature < s.temparature ∧
      ∀ (t t' : State) (v1 v2 : Nat) (u : ℚ),
        innerStep accepts M n t v1 v2 u = some t' → t'.temparature = t.temparature := by
  obtain ⟨s, hs, -, htemp⟩ := simulatedAnnealing_spec accepts hn hM rnd k
  obtain ⟨s', hs', -, htemp'⟩ := simulatedAnnealing_spec accepts hn hM rnd (k + 1)
  have hpos : 0 < s.temparature := by rw [htemp]; positivity
  refine ⟨s, s', hs, hs', htemp, hpos, ?_, fun t t' v1 v2 u h => innerStep_temparature h⟩
  have e : s'.temparature = s.temparature * 0.999 := by
    rw [htemp', htemp]; ring
  rw [e]
  have : s.temparature * 0.999 < s.temparature * 1 := by
    apply mul_lt_mul_of_pos_left _ hpos
    norm_num
  linarith

theorem temperature_decay_witness :
    ∃ s s', SimulatedAnnealing (fun _ _ _ => true) fourCityMatrix 4 (fun i => ⟨i, i + 1, 0⟩) 2
        = some (s, 99 * 2) ∧
      SimulatedAnnealing (fun _ _ _ => true) fourCityMatrix 4 (fun i => ⟨i, i + 1, 0⟩) (2 + 1)
        = some (s', 99 * (2 + 1)) ∧
      s.temparature = 10 ^ 18 * 0.999 ^ 2 ∧ 0 < s.temparature ∧
      s'.temparature < s.temparature ∧
      ∀ (t t' : State) (v1 v2 : Nat) (u : ℚ),
        innerStep (fun _ _ _ => true) fourCityMatrix 4 t v1 v2 u = some t' →
          t'.temparature = t.temparature :=
  temperature_decay (fun _ _ _ => true) fourCityMatrix 4 (by decide) (by decide)
    (fun i => ⟨i, i + 1, 0⟩) 2

/-! ## Exact effect of `two_opt` -/

theorem forLoop_add {σ : Type} (body : Nat → σ → Option σ) :
    ∀ (a b start : Nat) (s : σ),
      forLoop body (a + b) start s = (forLoop body a start s).bind (forLoop body b (start + a)) := by
  intro a
  induction a with
  | zero => intro b start s; simp [forLoop]
  | succ a ih =>
    intro b start s
    rw [show a + 1 + b = (a + b) + 1 by omega]
    simp only [forLoop]
    cases h : body start s with
    | none => simp
    | some t =>
      simp only [Option.some_bind]
      rw [ih b (start + 1) t, show start + 1 + a = start + (a + 1) by omega]

theorem two_opt_eq_swaps (r1 r2 : Nat) (p : Path) :
    two_opt r1 r2 p =
      (twoOptSwaps ((max r1 r2 - min r1 r2 + 1) / 2 + 1) (min r1 r2) (max r1 r2) p).map
        (fun st => st.new_path) := by
  have hmin : min r1 r2 = (if r1 > r2 then r2 else r1) := by split <;> omega
  have hmax : max r1 r2 = (if r1 > r2 then r1 else r2) := by split <;> omega
  rw [hmin, hmax]
  rfl

theorem swap_getElem? {p : Path} {i j : Nat} (hi : i < p.length) (hj : j < p.length) (q : Nat) :
    ((p.set i p[j]).set j p[i])[q]? =
      if q = j then p[i]? else if q = i then p[j]? else p[q]? := by
  rw [List.getElem?_set, List.getElem?_set]
  by_cases hqj : q = j
  · subst hqj
    rw [if_pos rfl, if_pos rfl, if_pos (by simpa using hj), List.getElem?_eq_getElem hi]
  · rw [if_neg hqj, if_neg (fun h => hqj h.symm)]
    by_cases hqi : q = i
    · subst hqi
      rw [if_pos rfl, if_pos rfl, if_pos hi, List.getElem?_eq_getElem hj]
    · rw [if_neg hqi, if_neg (fun h => hqi h.symm)]

/-- The first `K` swap steps, while the two indices have not crossed, mirror
the `K` outermost cells on each side of the segment. -/
theorem twoOptSwaps_mirror (p : Path) (lo hi K : Nat) (hlh : lo ≤ hi) (hhi : hi < p.length)
    (hK : K ≤ (hi - lo) / 2 + 1) :
    ∃ st, twoOptSwaps K lo hi p = some st ∧ st.i = lo + K ∧ st.j = hi - K ∧
      st.new_path.length = p.length ∧
      ∀ q, st.new_path[q]? =
        if (lo ≤ q ∧ q < lo + K) ∨ (hi - K < q ∧ q ≤ hi) then p[lo + hi - q]? else p[q]? := by
  have key := forLoop_invariant (fun _ st => twoOptStep st)
    (fun k st => st.i = lo + k ∧ st.j = hi - k ∧ st.new_path.length = p.length ∧
      ∀ q, st.new_path[q]? =
        if (lo ≤ q ∧ q < lo + k) ∨ (hi - k < q ∧ q ≤ hi) then p[lo + hi - q]? else p[q]?)
    K 0 ⟨lo, hi, p⟩
    ⟨rfl, rfl, rfl, fun q => by rw [if_neg (by omega)]⟩
    (by
      rintro k ⟨i, j, w⟩ _ hk ⟨hi', hj', hlen, hpt⟩
      simp only at hi' hj' hlen hpt
      subst hi' hj'
      have hib : lo + k < w.length := by omega
      have hjb : hi - k < w.length := by omega
      refine ⟨⟨lo + k + 1, hi - k - 1, (w.set (lo + k) w[hi - k]).set (hi - k) w[lo + k]⟩, ?_,
        (by show lo + k + 1 = lo + (k + 1); omega),
        (by show hi - k - 1 = hi - (k + 1); omega), by simpa using hlen, ?_⟩
      · simp [twoOptStep, swap_of_lt hib hjb]
      · intro q
        show ((w.set (lo + k) w[hi - k]).set (hi - k) w[lo + k])[q]? = _
        rw [swap_getElem? hib hjb]
        have hwi : w[lo + k]? = p[lo + k]? := by rw [hpt, if_neg (by omega)]
        have hwj : w[hi - k]? = p[hi - k]? := by rw [hpt, if_neg (by omega)]
        by_cases hqj : q = hi - k
        · rw [if_pos hqj, if_pos (by omega), hwi, hqj]
          congr 1; omega
        · rw [if_neg hqj]
          by_cases hqi : q = lo + k
          · rw [if_pos hqi, if_pos (by omega), hwj, hqi]
            congr 1; omega
          · rw [if_neg hqi, hpt q]
            by_cases c : (lo ≤ q ∧ q < lo + k) ∨ (hi - k < q ∧ q ≤ hi)
            · rw [if_pos c, if_pos (by omega)]
            · rw [if_neg c, if_neg (by omega)])
  obtain ⟨st, hst, h1, h2, h3, h4⟩ := key
  refine ⟨st, hst, by omega, by omega, h3, fun q => ?_⟩
  rw [h4 q]
  by_cases c : (lo ≤ q ∧ q < lo + (0 + K)) ∨ (hi - (0 + K) < q ∧ q ≤ hi)
  · rw [if_pos c, if_pos (by omega)]
  · rw [if_neg c, if_neg (by omega)]

theorem twoOptSwaps_succ (K lo hi : Nat) (p : Path) :
    twoOptSwaps (K + 1) lo hi p = (twoOptSwaps K lo hi p).bind twoOptStep := by
  unfold twoOptSwaps
  rw [forLoop_add]
  cases forLoop (fun _ st => twoOptStep st) K 0 ⟨lo, hi, p⟩ with
  | none => rfl
  | some st =>
    simp only [Option.some_bind, forLoop]
    cases twoOptStep st <;> rfl

/-- The complete loop of `two_opt` on a segment `[lo, hi]` inside the array. -/
theorem twoOptSwaps_exact (p : Path) (lo hi : Nat) (hlh : lo ≤ hi) (hhi : hi < p.length) :
    ∃ st, twoOptSwaps ((hi - lo + 1) / 2 + 1) lo hi p = some st ∧
      st.new_path.length = p.length ∧
      ∀ q, st.new_path[q]? = if Mirrored lo hi q then p[lo + hi - q]? else p[q]? := by
  obtain ⟨st, hst, hi', hj', hlen, hpt⟩ :=
    twoOptSwaps_mirror p lo hi ((hi - lo) / 2 + 1) hlh hhi (le_refl _)
  by_cases hodd : (hi - lo + 1) % 2 = 1
  · -- odd length: the last swap step is the self-swap of the middle cell
    have hc : (hi - lo + 1) / 2 + 1 = (hi - lo) / 2 + 1 := by omega
    rw [hc]
    refine ⟨st, hst, hlen, fun q => ?_⟩
    rw [hpt q]
    by_cases c : Mirrored lo hi q
    · rw [if_pos c, if_pos (by unfold Mirrored at c; omega)]
    · rw [if_neg c, if_neg (by unfold Mirrored at c; omega)]
  · -- even length: one more swap step exchanges the two middle cells again
    have hc : (hi - lo + 1) / 2 + 1 = ((hi - lo) / 2 + 1) + 1 := by omega
    rw [hc, twoOptSwaps_succ, hst]
    obtain ⟨i, j, w⟩ := st
    simp only at hi' hj' hlen hpt
    subst hi' hj'
    have hib : lo + ((hi - lo) / 2 + 1) < w.length := by omega
    have hjb : hi - ((hi - lo) / 2 + 1) < w.length := by omega
    refine ⟨⟨_, _, _⟩, by simp [twoOptStep, swap_of_lt hib hjb]; exact ⟨rfl, rfl, rfl⟩,
      by simpa using hlen, fun q => ?_⟩
    show ((w.set _ w[hi - ((hi - lo) / 2 + 1)]).set _ w[lo + ((hi - lo) / 2 + 1)])[q]? = _
    rw [swap_getElem? hib hjb]
    by_cases hqj : q = hi - ((hi - lo) / 2 + 1)
    · rw [if_pos hqj, hpt, if_pos (by omega), if_neg (by unfold Mirrored; omega), hqj]
      congr 1; omega
    · rw [if_neg hqj]
      by_cases hqi : q = lo + ((hi - lo) / 2 + 1)
      · rw [if_pos hqi, hpt, if_pos (by omega), if_neg (by unfold Mirrored; omega), hqi]
        congr 1; omega
      · rw [if_neg hqi, hpt q]
        by_cases c : Mirrored lo hi q
        · rw [if_pos c, if_pos (by unfold Mirrored at c; omega)]
        · rw [if_neg c, if_neg (by unfold Mirrored at c; omega)]

/-- Pointwise description of `two_opt` as coded, for two positions inside the array. -/
theorem two_opt_exact (p : Path) (r1 r2 : Nat) (h1 : r1 < p.length) (h2 : r2 < p.length) :
    ∃ p', two_opt r1 r2 p = some p' ∧ p'.length = p.length ∧
      ∀ q, p'[q]? =
        if Mirrored (min r1 r2) (max r1 r2) q then p[min r1 r2 + max r1 r2 - q]? else p[q]? := by
  obtain ⟨st, hst, hlen, hpt⟩ :=
    twoOptSwaps_exact p (min r1 r2) (max r1 r2) (by omega) (by omega)
  exact ⟨st.new_path, by rw [two_opt_eq_swaps, hst]; rfl, hlen, hpt⟩

theorem Mirrored.mirror {lo hi q : Nat} (h : Mirrored lo hi q) :
    Mirrored lo hi (lo + hi - q) ∧ lo + hi - (lo + hi - q) = q := by
  unfold Mirrored at h ⊢
  omega

/-- C14: exact effect of `two_opt` as coded.  For an array of `n + 1` cells and
positions `r1`, `r2` in `[1, n-1]`, with `lo = min r1 r2` and `hi = max r1 r2`:
the call succeeds; before each of the swap steps `k = 0, ..., ⌊(hi-lo+1)/2⌋`
the loop indices are `lo + k` and `hi - k`, both inside `[lo, hi]`; cells
outside `[lo, hi]` are unchanged; if `hi - lo + 1` is odd the segment is
exactly reversed; if it is even the segment is reversed except that the two
middle cells `(lo+hi-1)/2` and `(lo+hi+1)/2` keep their original elements; a
segment of length 2 is left unchanged. -/
theorem two_opt_exact_effect (n : Nat) (p : Path) (hlen : p.length = n + 1) (r1 r2 : Nat)
    (h1 : Interior n r1) (h2 : Interior n r2) (lo hi : Nat) (hlo : lo = min r1 r2)
    (hhi : hi = max r1 r2) :
    ∃ p', two_opt r1 r2 p = some p' ∧ p'.length = n + 1 ∧
      (∀ k, k ≤ (hi - lo + 1) / 2 → ∃ st, twoOptSwaps k lo hi p = some st ∧
        st.i = lo + k ∧ st.j = hi - k ∧ lo ≤ st.i ∧ st.i ≤ hi ∧ lo ≤ st.j ∧ st.j ≤ hi) ∧
      (∀ q, q < lo ∨ hi < q → p'[q]? = p[q]?) ∧
      ((hi - lo + 1) % 2 = 1 → ∀ q, lo ≤ q → q ≤ hi → p'[q]? = p[lo + hi - q]?) ∧
      ((hi - lo + 1) % 2 = 0 →
        (∀ q, lo ≤ q → q ≤ hi → q ≠ (lo + hi - 1) / 2 → q ≠ (lo + hi + 1) / 2 →
          p'[q]? = p[lo + hi - q]?) ∧
        p'[(lo + hi - 1) / 2]? = p[(lo + hi - 1) / 2]? ∧
        p'[(lo + hi + 1) / 2]? = p[(lo + hi + 1) / 2]?) ∧
      (hi = lo + 1 → p' = p) := by
  unfold Interior at h1 h2
  have hr1 : r1 < p.length := by omega
  have hr2 : r2 < p.length := by omega
  obtain ⟨p', hp', hl, hpt⟩ := two_opt_exact p r1 r2 hr1 hr2
  rw [← hlo, ← hhi] at hpt
  have hlh : lo ≤ hi := by omega
  have hhil : hi < p.length := by omega
  have hout : ∀ q, q < lo ∨ hi < q → p'[q]? = p[q]? := by
    intro q hq
    rw [hpt, if_neg (by unfold Mirrored; omega)]
  have heven : (hi - lo + 1) % 2 = 0 →
      p'[(lo + hi - 1) / 2]? = p[(lo + hi - 1) / 2]? ∧
      p'[(lo + hi + 1) / 2]? = p[(lo + hi + 1) / 2]? := by
    intro he
    constructor
    · rw [hpt, if_neg (by unfold Mirrored; omega)]
    · rw [hpt, if_neg (by unfold Mirrored; omega)]
  refine ⟨p', hp', by omega, ?_, hout, ?_, ?_, ?_⟩
  · intro k hk
    obtain ⟨st, hst, hi', hj', -, -⟩ := twoOptSwaps_mirror p lo hi k hlh hhil (by omega)
    exact ⟨st, hst, hi', hj', by omega, by omega, by omega, by omega⟩
  · intro ho q hq1 hq2
    rw [hpt, if_pos (by unfold Mirrored; omega)]
  · intro he
    refine ⟨fun q hq1 hq2 hm1 hm2 => ?_, heven he⟩
    rw [hpt, if_pos (by unfold Mirrored; omega)]
  · intro h2
    apply List.ext_getElem?
    intro q
    by_cases hq : q < lo ∨ hi < q
    · exact hout q hq
    · have he : (hi - lo + 1) % 2 = 0 := by omega
      obtain ⟨m1, m2⟩ := heven he
      have : q = (lo + hi - 1) / 2 ∨ q = (lo + hi + 1) / 2 := by omega
      rcases this with rfl | rfl
      · exact m1
      · exact m2

theorem two_opt_exact_effect_witness :
    ∃ p', two_opt 1 4 [0, 1, 2, 3, 4, 0] = some p' ∧ p'.length = 5 + 1 ∧
      (∀ k, k ≤ (4 - 1 + 1) / 2 → ∃ st, twoOptSwaps k 1 4 [0, 1, 2, 3, 4, 0] = some st ∧
        st.i = 1 + k ∧ st.j = 4 - k ∧ 1 ≤ st.i ∧ st.i ≤ 4 ∧ 1 ≤ st.j ∧ st.j ≤ 4) ∧
      (∀ q, q < 1 ∨ 4 < q → p'[q]? = [0, 1, 2, 3, 4, 0][q]?) ∧
      ((4 - 1 + 1) % 2 = 1 → ∀ q, 1 ≤ q → q ≤ 4 → p'[q]? = [0, 1, 2, 3, 4, 0][1 + 4 - q]?) ∧
      ((4 - 1 + 1) % 2 = 0 →
        (∀ q, 1 ≤ q → q ≤ 4 → q ≠ (1 + 4 - 1) / 2 → q ≠ (1 + 4 + 1) / 2 →
          p'[q]? = [0, 1, 2, 3, 4, 0][1 + 4 - q]?) ∧
        p'[(1 + 4 - 1) / 2]? = [0, 1, 2, 3, 4, 0][(1 + 4 - 1) / 2]? ∧
        p'[(1 + 4 + 1) / 2]? = [0, 1, 2, 3, 4, 0][(1 + 4 + 1) / 2]?) ∧
      (4 = 1 + 1 → p' = [0, 1, 2, 3, 4, 0]) :=
  two_opt_exact_effect 5 [0, 1, 2, 3, 4, 0] rfl 1 4 (by decide) (by decide) 1 4 rfl rfl

/-- C13: the extra swap step is not a self-swap on an even-length segment.  On
`[0,1,2,3,4,0]` with `r1 = 1`, `r2 = 4`, after the first `⌊4/2⌋ = 2` swap steps
the segment is fully reversed and the loop indices are `i = 3`, `j = 2`; the
last swap step exchanges these two cells again and the result is
`[0,4,2,3,1,0]`.  The same happens on every even-length segment: before the
last swap step the segment is fully reversed and `i = j + 1`. -/
theorem extra_swap_undoes_middle :
    twoOptSwaps 2 1 4 [0, 1, 2, 3, 4, 0] = some ⟨3, 2, [0, 4, 3, 2, 1, 0]⟩ ∧
      two_opt 1 4 [0, 1, 2, 3, 4, 0] = some [0, 4, 2, 3, 1, 0] ∧
      ∀ (p : Path) (lo hi : Nat), lo ≤ hi → hi < p.length → (hi - lo + 1) % 2 = 0 →
        ∃ st, twoOptSwaps ((hi - lo + 1) / 2) lo hi p = some st ∧ st.i = st.j + 1 ∧
          ∀ q, lo ≤ q → q ≤ hi → st.new_path[q]? = p[lo + hi - q]? := by
  refine ⟨by decide, by decide, ?_⟩
  intro p lo hi hlh hhi he
  obtain ⟨st, hst, hi', hj', -, hpt⟩ :=
    twoOptSwaps_mirror p lo hi ((hi - lo + 1) / 2) hlh hhi (by omega)
  refine ⟨st, hst, by omega, fun q hq1 hq2 => ?_⟩
  rw [hpt, if_pos (by omega)]

/-- C20: `two_opt` is symmetric in its two positions and is an involution: on
an array of `n + 1` cells and positions `r1`, `r2` in `[1, n-1]`,
`two_opt r1 r2` and `two_opt r2 r1` agree, and applying `two_opt r1 r2` twice
gives back the original array. -/
theorem two_opt_symmetric_involution (n : Nat) (p : Path) (hlen : p.length = n + 1)
    (r1 r2 : Nat) (h1 : Interior n r1) (h2 : Interior n r2) :
    two_opt r1 r2 p = two_opt r2 r1 p ∧
      ∃ p', two_opt r1 r2 p = some p' ∧ two_opt r1 r2 p' = some p := by
  unfold Interior at h1 h2
  constructor
  · rw [two_opt_eq_swaps, two_opt_eq_swaps, Nat.min_comm, Nat.max_comm]
  · obtain ⟨p', hp', hl, hpt⟩ := two_opt_exact p r1 r2 (by omega) (by omega)
    obtain ⟨p'', hp'', -, hpt'⟩ := two_opt_exact p' r1 r2 (by omega) (by omega)
    refine ⟨p', hp', ?_⟩
    rw [hp'']
    congr 1
    apply List.ext_getElem?
    intro q
    rw [hpt' q]
    by_cases c : Mirrored (min r1 r2) (max r1 r2) q
    · rw [if_pos c, hpt, if_pos c.mirror.1, c.mirror.2]
    · rw [if_neg c, hpt, if_neg c]

theorem two_opt_symmetric_involution_witness :
    two_opt 1 4 [0, 1, 2, 3, 4, 0] = two_opt 4 1 [0, 1, 2, 3, 4, 0] ∧
      ∃ p', two_opt 1 4 [0, 1, 2, 3, 4, 0] = some p' ∧ two_opt 1 4 p' = some [0, 1, 2, 3, 4, 0] :=
  two_opt_symmetric_involution 5 [0, 1, 2, 3, 4, 0] rfl 1 4 (by decide) (by decide)

/-- C16: position draws are valid interior positions.  For `n ≥ 2` and every
value `v` returned by `rand()`, `generateRandomNumber` returns
`(v mod (n-1)) + 1`, which lies in `[1, n-1]`; and every position of
`[1, n-1]` is returned for some `v`. -/
theorem position_draws_interior (n : Nat) (hn : 2 ≤ n) :
    (∀ v, generateRandomNumber n v = some (v % (n - 1) + 1) ∧
      1 ≤ v % (n - 1) + 1 ∧ v % (n - 1) + 1 ≤ n - 1) ∧
      ∀ r, 1 ≤ r → r ≤ n - 1 → ∃ v, generateRandomNumber n v = some r := by
  constructor
  · intro v
    have := interior_of_mod hn v
    exact ⟨generateRandomNumber_of_two_le hn v, this.1, this.2⟩
  · intro r hr1 hr2
    refine ⟨r - 1, ?_⟩
    rw [generateRandomNumber_of_two_le hn, Nat.mod_eq_of_lt (by omega)]
    congr 1
    omega

theorem position_draws_interior_witness :
    (∀ v, generateRandomNumber 5 v = some (v % (5 - 1) + 1) ∧
      1 ≤ v % (5 - 1) + 1 ∧ v % (5 - 1) + 1 ≤ 5 - 1) ∧
      ∀ r, 1 ≤ r → r ≤ 5 - 1 → ∃ v, generateRandomNumber 5 v = some r :=
  position_draws_interior 5 (by decide)

/-! ## Further properties of one step -/

/-- C15: the candidate is always the perturbation of a full copy of the current
tour.  In every reachable state (`n ≥ 2`) the reset loop, which copies cells
`1 .. n-1` only, leaves `new_path` equal to `curr_path` in all cells `0 .. n`;
the candidate of the step is `two_opt r1 r2 curr_path`, and the whole step
gives the same result whatever valid tour the previous candidate was. -/
theorem candidate_is_perturbed_current (accepts : Int → ℚ → ℚ → Bool) (M : Matrix) (n : Nat)
    (hn : 2 ≤ n) (hM : WellFormed M n) (s : State) (hs : Reachable accepts M n s)
    (r1 r2 : Nat) (h1 : Interior n r1) (h2 : Interior n r2) :
    resetCandidate n s = some { s with new_path := s.curr_path } ∧
      ∃ cand, two_opt r1 r2 s.curr_path = some cand ∧
        ∀ u, ∃ s', innerBody accepts M n s r1 r2 u = some s' ∧ s'.new_path = cand ∧
          ∀ w, ValidTour n w →
            innerBody accepts M n { s with new_path := w } r1 r2 u = some s' := by
  have hv := hs.valid hn hM
  obtain ⟨hc, hw, hm⟩ := hv
  have hreset : copyInterior n s.curr_path s.new_path = some s.curr_path :=
    copyInterior_eq_src n _ _ hc.1 hw.1 (by rw [hw.2.1, hc.2.1]) (by rw [hw.2.2.1, hc.2.2.1])
  refine ⟨by simp [resetCandidate, hreset], ?_⟩
  obtain ⟨cand, hcand, -⟩ := two_opt_valid hn hc h1 h2
  refine ⟨cand, hcand, fun u => ?_⟩
  obtain ⟨cand', cn, c1, cm, hcand', -, hcn, hc1, hcm, hstep⟩ :=
    innerBody_spec accepts hn hM ⟨hc, hw, hm⟩ h1 h2 u
  rw [hcand] at hcand'
  cases hcand'
  refine ⟨_, hstep, rfl, fun w hw' => ?_⟩
  obtain ⟨cand₂, cn₂, c1₂, cm₂, hcand₂, -, hcn₂, hc1₂, hcm₂, hstep₂⟩ :=
    innerBody_spec accepts hn hM (s := { s with new_path := w }) ⟨hc, hw', hm⟩ h1 h2 u
  simp only at hcand₂ hc1₂ hcm₂ hstep₂
  rw [hcand] at hcand₂
  cases hcand₂
  rw [hcn] at hcn₂
  rw [hc1] at hc1₂
  rw [hcm] at hcm₂
  cases hcn₂
  cases hc1₂
  cases hcm₂
  exact hstep₂

theorem candidate_is_perturbed_current_witness :
    resetCandidate 4 ⟨identityTour 4, identityTour 4, identityTour 4, 1e18, []⟩ =
        some ⟨identityTour 4, identityTour 4, identityTour 4, 1e18, []⟩ ∧
      ∃ cand, two_opt 1 3 (identityTour 4) = some cand ∧
        ∀ u, ∃ s', innerBody (fun _ _ _ => true) fourCityMatrix 4
            ⟨identityTour 4, identityTour 4, identityTour 4, 1e18, []⟩ 1 3 u = some s' ∧
          s'.new_path = cand ∧
          ∀ w, ValidTour 4 w →
            innerBody (fun _ _ _ => true) fourCityMatrix 4
              ⟨identityTour 4, w, identityTour 4, 1e18, []⟩ 1 3 u = some s' :=
  candidate_is_perturbed_current (fun _ _ _ => true) fourCityMatrix 4 (by decide) (by decide)
    ⟨identityTour 4, identityTour 4, identityTour 4, 1e18, []⟩ (Reachable.start (init_eq 4))
    1 3 (by decide) (by decide)

/-- C19: the incumbent is never worse than the current tour.  For `n ≥ 2`, in
every state reachable from the initial state, both costs are defined and
`getCost min_path ≤ getCost curr_path`. -/
theorem incumbent_not_worse_than_current (accepts : Int → ℚ → ℚ → Bool) (M : Matrix)
    (n : Nat) (hn : 2 ≤ n) (hM : WellFormed M n) (s : State) (hs : Reachable accepts M n s) :
    ∃ cm c1, getCost M n s.min_path = some cm ∧ getCost M n s.curr_path = some c1 ∧
      cm ≤ c1 := by
  induction hs with
  | start h0 =>
    rw [init_eq] at h0
    cases h0
    obtain ⟨c, hc⟩ := getCost_total hM ((validTour_identity n).citiesInRange (by omega))
    exact ⟨c, c, hc, hc, le_refl _⟩
  | @step t t' r1 r2 u hreach h1 h2 hstep ih =>
    obtain ⟨cm, c1, hcm, hc1, hle⟩ := ih
    obtain ⟨cand, cn, c1', cm', -, -, hcn, hc1', hcm', hspec⟩ :=
      innerBody_spec accepts hn hM (hreach.valid hn hM) h1 h2 u
    rw [hcm] at hcm'
    rw [hc1] at hc1'
    cases hcm'
    cases hc1'
    rw [hspec] at hstep
    cases hstep
    by_cases hlt : cn < cm <;> cases ha : accepts (cn - c1) t.temparature u
    · exact ⟨cn, c1, by simp [hlt, hcn], by simp [ha, hc1], by omega⟩
    · exact ⟨cn, cn, by simp [hlt, hcn], by simp [ha, hcn], le_refl _⟩
    · exact ⟨cm, c1, by simp [hlt, hcm], by simp [ha, hc1], hle⟩
    · exact ⟨cm, cn, by simp [hlt, hcm], by simp [ha, hcn], by omega⟩
  | cooled _ ih => exact ih

theorem fourCity_cost_identity : getCost fourCityMatrix 4 [0, 1, 2, 3, 0] = some 20 := by
  norm_num [getCost, forLoop, readAt, toInt, truncate, INT_MIN, INT_MAX, fourCityMatrix]

theorem fourCity_cost_reversed : getCost fourCityMatrix 4 [0, 3, 2, 1, 0] = some 4 := by
  norm_num [getCost, forLoop, readAt, toInt, truncate, INT_MIN, INT_MAX, fourCityMatrix]

/-- First inner step on the four-city instance, positions `1` and `3`,
accepted: the reversed tour (cost 4) replaces the identity tour (cost 20) as
current tour and as incumbent, and is reported. -/
theorem fourCity_step_one :
    innerBody (fun _ _ _ => true) fourCityMatrix 4
        ⟨identityTour 4, identityTour 4, identityTour 4, 1e18, []⟩ 1 3 0
      = some ⟨[0, 3, 2, 1, 0], [0, 3, 2, 1, 0], [0, 3, 2, 1, 0], 1e18, [⟨4, [1, 4, 3, 2]⟩]⟩ := by
  obtain ⟨cand, cn, c1, cm, hcand, -, hcn, hc1, hcm, hstep⟩ :=
    innerBody_spec (fun _ _ _ => true) (M := fourCityMatrix) (n := 4) (by decide) (by decide)
      (s := ⟨identityTour 4, identityTour 4, identityTour 4, 1e18, []⟩) (by decide)
      (by decide : Interior 4 1) (by decide : Interior 4 3) 0
  have h2 : two_opt 1 3 (identityTour 4) = some [0, 3, 2, 1, 0] := by decide
  simp only at hcand hc1 hcm
  rw [h2] at hcand
  cases hcand
  rw [fourCity_cost_reversed] at hcn
  rw [show identityTour 4 = [0, 1, 2, 3, 0] from rfl, fourCity_cost_identity] at hc1 hcm
  cases hcn
  cases hc1
  cases hcm
  rw [hstep]
  simp [printedCities]

/-- Second inner step, again positions `1` and `3`, accepted although worse:
the current tour goes back to the identity tour (cost 20) while the incumbent
stays the reversed tour (cost 4); nothing is reported. -/
theorem fourCity_step_two :
    innerBody (fun _ _ _ => true) fourCityMatrix 4
        ⟨[0, 3, 2, 1, 0], [0, 3, 2, 1, 0], [0, 3, 2, 1, 0], 1e18, [⟨4, [1, 4, 3, 2]⟩]⟩ 1 3 0
      = some ⟨[0, 1, 2, 3, 0], [0, 1, 2, 3, 0], [0, 3, 2, 1, 0], 1e18, [⟨4, [1, 4, 3, 2]⟩]⟩ := by
  obtain ⟨cand, cn, c1, cm, hcand, -, hcn, hc1, hcm, hstep⟩ :=
    innerBody_spec (fun _ _ _ => true) (M := fourCityMatrix) (n := 4) (by decide) (by decide)
      (s := ⟨[0, 3, 2, 1, 0], [0, 3, 2, 1, 0], [0, 3, 2, 1, 0], 1e18, [⟨4, [1, 4, 3, 2]⟩]⟩)
      (by decide) (by decide : Interior 4 1) (by decide : Interior 4 3) 0
  have h2 : two_opt 1 3 [0, 3, 2, 1, 0] = some [0, 1, 2, 3, 0] := by decide
  simp only at hcand hc1 hcm
  rw [h2] at hcand
  cases hcand
  rw [fourCity_cost_identity] at hcn
  rw [fourCity_cost_reversed] at hc1 hcm
  cases hcn
  cases hc1
  cases hcm
  rw [hstep]
  simp

theorem incumbent_not_worse_than_current_witness :
    Reachable (fun _ _ _ => true) fourCityMatrix 4
        ⟨[0, 1, 2, 3, 0], [0, 1, 2, 3, 0], [0, 3, 2, 1, 0], 1e18, [⟨4, [1, 4, 3, 2]⟩]⟩ ∧
      ∃ cm c1, getCost fourCityMatrix 4 [0, 3, 2, 1, 0] = some cm ∧
        getCost fourCityMatrix 4 [0, 1, 2, 3, 0] = some c1 ∧ cm ≤ c1 ∧ cm = 4 ∧ c1 = 20 := by
  have hreach : Reachable (fun _ _ _ => true) fourCityMatrix 4
      ⟨[0, 1, 2, 3, 0], [0, 1, 2, 3, 0], [0, 3, 2, 1, 0], 1e18, [⟨4, [1, 4, 3, 2]⟩]⟩ :=
    Reachable.step
      (Reachable.step (Reachable.start (init_eq 4)) (by decide) (by decide) fourCity_step_one)
      (by decide) (by decide) fourCity_step_two
  obtain ⟨cm, c1, hcm, hc1, hle⟩ :=
    incumbent_not_worse_than_current (fun _ _ _ => true) fourCityMatrix 4 (by decide)
      (by decide) _ hreach
  refine ⟨hreach, cm, c1, hcm, hc1, hle, ?_, ?_⟩
  · have := hcm
    simp only [fourCity_cost_reversed, Option.some.injEq] at this
    exact this.symm
  · have := hc1
    simp only [fourCity_cost_identity, Option.some.injEq] at this
    exact this.symm

/-! ## The printed city sequence -/

theorem printedCities_valid {n : Nat} {p : Path} (hn : 1 ≤ n) (hv : ValidTour n p) :
    (printedCities n p).length = n ∧
      (∀ i, i < n → (printedCities n p)[i]? = (p[i]?).map (· + 1)) ∧
      (printedCities n p)[0]? = some 1 ∧
      (printedCities n p).Perm (List.range' 1 n) := by
  obtain ⟨hlen, h0, hlast, hperm⟩ := hv
  have hpt : ∀ i, i < n → (printedCities n p)[i]? = (p[i]?).map (· + 1) := by
    intro i hi
    unfold printedCities
    rw [List.getElem?_map, List.getElem?_take_of_lt hi]
  refine ⟨by simp [printedCities, hlen], hpt, by rw [hpt 0 (by omega), h0]; rfl, ?_⟩
  have dp := tour_decompose hn hlen h0 hlast
  obtain ⟨I, hI⟩ : ∃ I, I = (p.drop 1).take (n - 1) := ⟨_, rfl⟩
  rw [← hI] at dp hperm
  have hIl : I.length = n - 1 := by rw [hperm.length_eq]; simp
  have htake : p.take n = 0 :: I := by
    rw [dp, show n = (n - 1) + 1 by omega, List.take_succ_cons,
      List.take_append_of_le_length (by omega), List.take_of_length_le (by omega)]
  have hmap : (List.range' 1 (n - 1)).map (· + 1) = List.range' 2 (n - 1) := by
    have := List.map_add_range' 1 1 (n - 1) 1
    rw [← this]
    apply List.map_congr_left
    intro a _
    omega
  unfold printedCities
  rw [htake, List.map_cons, show List.range' 1 n = 1 :: List.range' 2 (n - 1) by
    rw [show n = (n - 1) + 1 by omega, List.range'_succ]; simp, ← hmap]
  exact List.Perm.cons _ (hperm.map _)

/-- C11: every report lists a valid 1-indexed tour.  For `n ≥ 2`, in every
reachable state, an inner step either prints nothing or appends exactly one
report; in the second case the incumbent is the candidate of that step, the
printed cost is `getCost` of the incumbent, and the printed city sequence is
`min_path[i] + 1` for `i = 0, ..., n-1`: it has exactly `n` values, starts
with `1`, and is a permutation of `1, ..., n`. -/
theorem report_lists_valid_tour (accepts : Int → ℚ → ℚ → Bool) (M : Matrix) (n : Nat)
    (hn : 2 ≤ n) (hM : WellFormed M n) (s : State) (hs : Reachable accepts M n s)
    (r1 r2 : Nat) (h1 : Interior n r1) (h2 : Interior n r2) (u : ℚ) :
    ∃ s', innerBody accepts M n s r1 r2 u = some s' ∧
      (s'.out = s.out ∨
        ∃ r, s'.out = s.out ++ [r] ∧
          two_opt r1 r2 s.curr_path = some s'.min_path ∧
          getCost M n s'.min_path = some r.cost ∧
          r.cities.length = n ∧
          (∀ i, i < n → r.cities[i]? = (s'.min_path[i]?).map (· + 1)) ∧
          r.cities[0]? = some 1 ∧
          r.cities.Perm (List.range' 1 n)) := by
  obtain ⟨cand, cn, c1, cm, hcand, hv, hcn, -, -, hstep⟩ :=
    innerBody_spec accepts hn hM (hs.valid hn hM) h1 h2 u
  refine ⟨_, hstep, ?_⟩
  by_cases hlt : cn < cm
  · right
    obtain ⟨hl, hpt, hhead, hperm⟩ := printedCities_valid (by omega : 1 ≤ n) hv
    refine ⟨⟨cn, printedCities n cand⟩, by simp [hlt], ?_, ?_, hl, ?_, hhead, hperm⟩
    · simp [hlt, hcand]
    · simp [hlt, hcn]
    · simpa [hlt] using hpt
  · left
    simp [hlt]

theorem report_lists_valid_tour_witness :
    ∃ s', innerBody (fun _ _ _ => false) fourCityMatrix 4
        ⟨identityTour 4, identityTour 4, identityTour 4, 1e18, []⟩ 1 3 0 = some s' ∧
      (s'.out = [] ∨
        ∃ r, s'.out = [] ++ [r] ∧
          two_opt 1 3 (identityTour 4) = some s'.min_path ∧
          getCost fourCityMatrix 4 s'.min_path = some r.cost ∧
          r.cities.length = 4 ∧
          (∀ i, i < 4 → r.cities[i]? = (s'.min_path[i]?).map (· + 1)) ∧
          r.cities[0]? = some 1 ∧
          r.cities.Perm (List.range' 1 4)) :=
  report_lists_valid_tour (fun _ _ _ => false) fourCityMatrix 4 (by decide) (by decide)
    ⟨identityTour 4, identityTour 4, identityTour 4, 1e18, []⟩ (Reachable.start (init_eq 4))
    1 3 (by decide) (by decide) 0

/-! ## The inner loop counts 99 -/

/-- The loop `while (--i)` entered with `i = m + 1` on a valid state performs
exactly the `m` inner steps fed by `rnd done, ..., rnd (done + m - 1)`. -/
theorem innerLoop_eq_runBody (accepts : Int → ℚ → ℚ → Bool) {M : Matrix} {n : Nat}
    (hn : 2 ≤ n) (hM : WellFormed M n) (rnd : Nat → Rand) :
    ∀ (m fuel done : Nat) (s : State), ValidState n s → m + 1 ≤ fuel →
      ∃ t, innerLoop accepts M n rnd fuel ((m : Int) + 1) done s = some (t, done + m) ∧
        runBody accepts M n ((List.range m).map (fun k => positionsOf n (rnd (done + k)))) s
          = some t ∧
        ValidState n t ∧ t.temparature = s.temparature := by
  intro m
  induction m with
  | zero =>
    intro fuel done s hs hf
    obtain ⟨f, rfl⟩ : ∃ f, fuel = f + 1 := ⟨fuel - 1, by omega⟩
    exact ⟨s, by simp [innerLoop], by simp [runBody], hs, rfl⟩
  | succ m ih =>
    intro fuel done s hs hf
    obtain ⟨f, rfl⟩ : ∃ f, fuel = f + 1 := ⟨fuel - 1, by omega⟩
    obtain ⟨t, ht, hvt, htt⟩ :=
      innerStep_valid accepts hn hM hs (rnd done).v1 (rnd done).v2 (rnd done).u
    obtain ⟨s', hs', hrun, hvs', hts'⟩ := ih f (done + 1) t hvt (by omega)
    refine ⟨s', ?_, ?_, hvs', by rw [hts', htt]⟩
    · have hne : ((m + 1 : Nat) : Int) + 1 - 1 ≠ 0 := by omega
      have hi : ((m + 1 : Nat) : Int) + 1 - 1 = (m : Int) + 1 := by omega
      have hne' : ¬ ((m : Int) + 1 = 0) := by omega
      unfold innerLoop
      simp only [hne, ne_eq, not_false_eq_true, if_true, ht, Option.some_bind, hi, hs', hne']
      rw [show done + 1 + m = done + (m + 1) by omega]
    · rw [innerStep_eq_innerBody accepts M hn] at ht
      have hcomp : ((fun k => positionsOf n (rnd (done + k))) ∘ Nat.succ)
          = (fun k => positionsOf n (rnd (done + 1 + k))) := by
        funext k
        simp only [Function.comp, Nat.succ_eq_add_one]
        rw [show done + (k + 1) = done + 1 + k by omega]
      rw [List.range_succ_eq_map, List.map_cons, List.map_map, hcomp]
      show (innerBody accepts M n s ((rnd done).v1 % (n - 1) + 1) ((rnd done).v2 % (n - 1) + 1)
        (rnd done).u).bind _ = _
      rw [ht]
      exact hrun

/-- C17: each outer iteration performs exactly 99 inner steps and then exactly
one cooling multiplication.  From a valid state (`n ≥ 2`), the loop
`i = 100; while (--i) { step }` terminates (for every bound of at least
100 loop tests), its body has run exactly 99 times, on the 99 successive
random inputs, and the outer iteration then multiplies the temperature once
by `0.999`. -/
theorem outer_iteration_99_steps (accepts : Int → ℚ → ℚ → Bool) (M : Matrix) (n : Nat)
    (hn : 2 ≤ n) (hM : WellFormed M n) (rnd : Nat → Rand) (s : State) (hs : ValidState n s)
    (done : Nat) :
    ∃ t, (∀ fuel, 100 ≤ fuel → innerLoop accepts M n rnd fuel 100 done s = some (t, done + 99)) ∧
      runBody accepts M n ((List.range 99).map (fun k => positionsOf n (rnd (done + k)))) s
        = some t ∧
      outerIteration accepts M n rnd (s, done) = some (cool t, done + 99) ∧
      (cool t).temparature = s.temparature * 0.999 := by
  have h100 : ((99 : Nat) : Int) + 1 = 100 := by norm_num
  obtain ⟨t, ht, hrun, -, htemp⟩ :=
    innerLoop_eq_runBody accepts hn hM rnd 99 100 done s hs (by omega)
  rw [h100] at ht
  refine ⟨t, ?_, hrun, by simp [outerIteration, ht], by simp [cool, htemp]⟩
  intro fuel hf
  obtain ⟨t', ht', hrun', -, -⟩ :=
    innerLoop_eq_runBody accepts hn hM rnd 99 fuel done s hs (by omega)
  rw [h100] at ht'
  rw [hrun] at hrun'
  cases hrun'
  exact ht'

theorem outer_iteration_99_steps_witness :
    ∃ t, (∀ fuel, 100 ≤ fuel →
        innerLoop (fun _ _ _ => true) fourCityMatrix 4 (fun i => ⟨i, i + 1, 0⟩) fuel 100 0
          ⟨identityTour 4, identityTour 4, identityTour 4, 1e18, []⟩ = some (t, 0 + 99)) ∧
      runBody (fun _ _ _ => true) fourCityMatrix 4
        ((List.range 99).map (fun k => positionsOf 4 ((fun i => ⟨i, i + 1, 0⟩) (0 + k))))
        ⟨identityTour 4, identityTour 4, identityTour 4, 1e18, []⟩ = some t ∧
      outerIteration (fun _ _ _ => true) fourCityMatrix 4 (fun i => ⟨i, i + 1, 0⟩)
        (⟨identityTour 4, identityTour 4, identityTour 4, 1e18, []⟩, 0) = some (cool t, 0 + 99) ∧
      (cool t).temparature = (1e18 : ℚ) * 0.999 :=
  outer_iteration_99_steps (fun _ _ _ => true) fourCityMatrix 4 (by decide) (by decide)
    (fun i => ⟨i, i + 1, 0⟩) ⟨identityTour 4, identityTour 4, identityTour 4, 1e18, []⟩
    (by decide) 0

/-! ## The acceptance rule -/

theorem prob_base_gt_one : (1 : ℝ) < 2.71828 := by norm_num

theorem prob_lt_of_lt {T : ℝ} (hT : 0 < T) {g₁ g₂ : ℝ} (h : g₁ < g₂) :
    prob g₂ T < prob g₁ T := by
  unfold prob
  have hx : (2.71828 : ℝ) ^ (g₁ / T) < (2.71828 : ℝ) ^ (g₂ / T) :=
    Real.rpow_lt_rpow_of_exponent_lt prob_base_gt_one ((div_lt_div_iff_of_pos_right hT).mpr h)
  have hpos : (0 : ℝ) < (2.71828 : ℝ) ^ (g₁ / T) := Real.rpow_pos_of_pos (by norm_num) _
  exact one_div_lt_one_div_of_lt (by linarith) (by linarith)

theorem prob_zero (T : ℝ) : prob 0 T = 1 / 2 := by
  unfold prob
  rw [zero_div, Real.rpow_zero]
  norm_num

/-- C18: shape of the acceptance probability over the reals.  For
`prob = 1 / (1 + b ^ (gain / temperature))` with `b = 2.71828` and every
temperature `> 0`: `gain < 0` gives `prob > 1/2`, `gain = 0` gives
`prob = 1/2`, `gain > 0` gives `prob < 1/2`; `prob` is strictly decreasing in
`gain`; and `prob` lies strictly between 0 and 1. -/
theorem acceptance_probability_shape (T : ℝ) (hT : 0 < T) :
    (∀ g, g < 0 → 1 / 2 < prob g T) ∧ prob 0 T = 1 / 2 ∧ (∀ g, 0 < g → prob g T < 1 / 2) ∧
      (∀ g₁ g₂, g₁ < g₂ → prob g₂ T < prob g₁ T) ∧ ∀ g, 0 < prob g T ∧ prob g T < 1 := by
  refine ⟨fun g hg => ?_, prob_zero T, fun g hg => ?_, fun g₁ g₂ h => prob_lt_of_lt hT h,
    fun g => ?_⟩
  · rw [← prob_zero T]
    exact prob_lt_of_lt hT hg
  · rw [← prob_zero T]
    exact prob_lt_of_lt hT hg
  · have hpos : (0 : ℝ) < (2.71828 : ℝ) ^ (g / T) := Real.rpow_pos_of_pos (by norm_num) _
    unfold prob
    constructor
    · positivity
    · rw [div_lt_one (by linarith)]
      linarith

theorem acceptance_probability_shape_witness :
    (∀ g, g < 0 → 1 / 2 < prob g 1) ∧ prob 0 1 = 1 / 2 ∧ (∀ g, 0 < g → prob g 1 < 1 / 2) ∧
      (∀ g₁ g₂, g₁ < g₂ → prob g₂ 1 < prob g₁ 1) ∧ ∀ g, 0 < prob g 1 ∧ prob g 1 < 1 :=
  acceptance_probability_shape 1 (by norm_num)

end Anneal
